import Mathlib

/-!
Verification of the Bitcoin blockchain query API (blockchain.py, server.py).

The source threads hex strings (two lowercase hex characters per byte)
through its data structures; `s.decode('hex')` and `bin.encode('hex_codec')`
are mutually inverse bijections, concatenation of hex strings corresponds
to concatenation of the underlying byte strings, and `s[::-1]` on a hash
hex string corresponds to reversing the byte string.  The embedding
therefore works at the byte level throughout: a `Bytes` value is the list
of byte values that the hex string in the source denotes.

SHA256 itself is treated as an opaque parameter `dsha` standing for the
double hash `SHA256(SHA256(·))`; every theorem quantifies over it (or
instantiates it with a concrete function in a witness).

Recursions of the source that are not structurally terminating
(`get_merkle_root`, the BFS work loop, the backward walk, the block-file
loop) are embedded with an explicit fuel argument; `none` means the fuel
ran out before the source's loop finished, so a `some` result is exactly a
terminating run of the source.
-/

namespace BQA

set_option maxRecDepth 100000

deriving instance DecidableEq for Except

/-- A byte string: each entry is a byte value (0..255 for real data). -/
abbrev Bytes := List Nat

/-- A 32-byte hash in internal (little-endian) byte order. -/
abbrev Hash := List Nat

/-- `source_hash`, the all-zero sentinel that is the previous-block hash of
the genesis block (blockchain.py line 23), as raw bytes. -/
def sourceHash : Hash := List.replicate 32 0

/-- Python slice `b[i : i+n]`: at most `n` bytes starting at `i`, silently
shorter when the buffer ends early (never an error). -/
def pySlice (b : Bytes) (i n : Nat) : Bytes := (b.drop i).take n

/-- Value of a little-endian byte string (first byte least significant).
`int(hex[::-1], 16)` in the source computes exactly this on the bytes the
hex string denotes. -/
def leVal : Bytes → Nat
  | [] => 0
  | b :: bs => b + 256 * leVal bs

/-- `struct.unpack` of an `n`-byte little-endian unsigned integer at
offset `i`: raises (returns `none`) unless exactly `n` bytes are
available, like `struct.unpack` on a short slice. -/
def unpackLE (b : Bytes) (i n : Nat) : Option Nat :=
  let s := pySlice b i n
  if s.length = n then some (leVal s) else none

/-- On a buffer of genuine bytes every entry is `< 256`. -/
def ByteBounded (b : Bytes) : Prop := ∀ x ∈ b, x < 256

instance byteBoundedDecidable (b : Bytes) : Decidable (ByteBounded b) := by
  unfold ByteBounded
  infer_instance

/-! ### Association-list model of Python dicts

The source only ever reads dict entries by key and writes single keys
(`d[k] = v`); iteration order of the dicts themselves is never used, so an
association list with single-binding update is a faithful model. -/

/-- Dict lookup `d[k]` / `k in d`. -/
def dGet {α β : Type} [DecidableEq α] : List (α × β) → α → Option β
  | [], _ => none
  | (k', v) :: m, k => if k' = k then some v else dGet m k

/-- Dict update `d[k] = v`: overwrite the binding if the key is present,
otherwise append a fresh binding at the end. -/
def dSet {α β : Type} [DecidableEq α] : List (α × β) → α → β → List (α × β)
  | [], k, v => [(k, v)]
  | (k', v') :: m, k, v =>
      if k' = k then (k, v) :: m else (k', v') :: dSet m k v

/-! ### CompactSize (`parse_var_len_int`, blockchain.py lines 320-347) -/

/-- `parse_var_len_int(block, nth_byte)`: Bitcoin CompactSize decoding.
Returns `(value, bytes_consumed)`; `none` models a `struct` exception on a
truncated buffer.  The final `(0, 0)` branch is the defensive
`UnknownCompactSizeMarker` sentinel of the source. -/
def parse_var_len_int (block : Bytes) (nth : Nat) : Option (Nat × Nat) :=
  match unpackLE block nth 1 with
  | none => none
  | some first_byte =>
    if first_byte < 0xFD then some (first_byte, 1)
    else if first_byte = 0xFD then
      (unpackLE block (nth + 1) 2).map (fun d => (d, 3))
    else if first_byte = 0xFE then
      (unpackLE block (nth + 1) 4).map (fun d => (d, 5))
    else if first_byte = 0xFF then
      (unpackLE block (nth + 1) 8).map (fun d => (d, 9))
    else
      some (0, 0)

/-! ### Merkle root (`get_merkle_root`, blockchain.py lines 283-317) -/

/-- One bottom-up round of `get_merkle_root`: the source loops
`for i in range(num_pair)` with `num_pair = len(child_hashes) / 2` and
hashes `child_hashes[2i] ++ child_hashes[2i+1]`. -/
def merklePass (dsha : Bytes → Hash) (cs : List Hash) : List Hash :=
  (List.range (cs.length / 2)).map
    (fun i => dsha (cs.getD (2 * i) [] ++ cs.getD (2 * i + 1) []))

/-- `get_merkle_root(child_hashes)` with explicit fuel: if the list has one
element return it, otherwise duplicate the last element when the length is
odd, hash adjacent pairs and recurse.  `none` means the recursion did not
finish within `fuel` steps (on the empty list it never finishes). -/
def get_merkle_root (dsha : Bytes → Hash) : Nat → List Hash → Option Hash
  | 0, _ => none
  | fuel + 1, cs =>
    if cs.length = 1 then some (cs.headD [])
    else
      let padded :=
        if cs.length % 2 = 1 then cs ++ [cs.getD (cs.length - 1) []] else cs
      get_merkle_root dsha fuel (merklePass dsha padded)

/-- One combining round exactly as the spec (section 4.2.1) words it: "for
each adjacent pair `(a, b)`, compute `SHA256(SHA256(a || b))`".  Modelled
from the spec for the refinement comparison with `merklePass`. -/
def merkleSpecStep (dsha : Bytes → Hash) : List Hash → List Hash
  | a :: b :: rest => dsha (a ++ b) :: merkleSpecStep dsha rest
  | _ => []

/-- The spec's Merkle recursion (section 4.2.1), fuelled like the code's:
return the sole element, pad an odd list with its last element, combine
adjacent pairs, recurse on the half-sized list.  Modelled from the spec
for the refinement comparison with `get_merkle_root`. -/
def merkleSpecRoot (dsha : Bytes → Hash) : Nat → List Hash → Option Hash
  | 0, _ => none
  | fuel + 1, cs =>
    if cs.length = 1 then some (cs.headD [])
    else
      let padded :=
        if cs.length % 2 = 1 then cs ++ [cs.getD (cs.length - 1) []] else cs
      merkleSpecRoot dsha fuel (merkleSpecStep dsha padded)

/-! ### Entities (blockchain.py lines 48-281)

`main_chain` and `height` are attributes that the source mutates on block
objects after ingestion; the embedding keeps them outside the `Block`
value, as maps from the block's position in the ingestion order (its
object identity) produced by the resolver. -/

/-- `InputTransaction`: prev txid (32 bytes LE), signature script,
sequence number (4 bytes LE), all raw bytes. -/
structure InputTransaction where
  prev_tx_hash : Hash
  script : Bytes
  seq_num : Bytes
deriving DecidableEq

/-- `OutputTransaction`: satoshi amount (8 bytes LE) and pubkey script. -/
structure OutputTransaction where
  satoshi_amount : Bytes
  script : Bytes
deriving DecidableEq

/-- `Transaction`: txid plus the parsed fields. -/
structure Transaction where
  hash : Hash
  version : Bytes
  input_tx_count : Nat
  input_txs : List InputTransaction
  output_tx_count : Nat
  output_txs : List OutputTransaction
  locktime : Bytes
deriving DecidableEq

/-- `Block`: the six header fields plus the transaction list. -/
structure Block where
  version : Bytes
  previous_block_header_hash : Hash
  merkle_root_hash : Hash
  start_time : Bytes
  nBits : Bytes
  nonce : Bytes
  tx_count : Nat
  txs : List Transaction
deriving DecidableEq

/-- `get_satoshi_int`: `int(hex[::-1], 16)` of the 8 amount bytes, i.e.
the little-endian value. -/
def OutputTransaction.get_satoshi_int (o : OutputTransaction) : Nat :=
  leVal o.satoshi_amount

/-- `get_curr_hash_little`: double-SHA256 of the 80-byte header built by
concatenating the six header fields. -/
def Block.get_curr_hash_little (dsha : Bytes → Hash) (b : Block) : Hash :=
  dsha (b.version ++ b.previous_block_header_hash ++ b.merkle_root_hash ++
    b.start_time ++ b.nBits ++ b.nonce)

/-! ### Chain index (module-level dicts, blockchain.py lines 27-44) -/

/-- The three module-level dicts plus the list of ingested block objects
in ingestion order (a block's position in `blocks` is its object
identity; the children lists hold such positions). -/
structure Store where
  prev_hash_to_blocks : List (Hash × List Nat)
  curr_hash_to_prev_hash : List (Hash × Hash)
  txid_to_prev_hash : List (Hash × Hash)
  blocks : List Block
deriving DecidableEq

def emptyStore : Store := ⟨[], [], [], []⟩

/-- The index updates performed while a block is parsed
(blockchain.py lines 516-518 and 535-545): record `txid → prev_hash` for
every transaction, append the block to its parent's children list, and
record `curr_hash → prev_hash`. -/
def storeInsert (dsha : Bytes → Hash) (s : Store) (b : Block) : Store :=
  let id := s.blocks.length
  let txm := b.txs.foldl
    (fun m t => dSet m t.hash b.previous_block_header_hash) s.txid_to_prev_hash
  let pm :=
    match dGet s.prev_hash_to_blocks b.previous_block_header_hash with
    | some ids =>
        dSet s.prev_hash_to_blocks b.previous_block_header_hash (ids ++ [id])
    | none => dSet s.prev_hash_to_blocks b.previous_block_header_hash [id]
  let cm := dSet s.curr_hash_to_prev_hash (b.get_curr_hash_little dsha)
    b.previous_block_header_hash
  ⟨pm, cm, txm, s.blocks ++ [b]⟩

/-- Ingestion of a sequence of decoded blocks in order. -/
def ingest (dsha : Bytes → Hash) (bs : List Block) : Store :=
  bs.foldl (storeInsert dsha) emptyStore

/-! ### Block decoder (`parse_block`, blockchain.py lines 360-547) -/

/-- Fatal ingest error kinds (spec section 7). -/
inductive PErr where
  | BadMagic
  | SizeMismatch
  | MerkleMismatch
  | TruncatedInput
deriving DecidableEq

/-- One input transaction (blockchain.py lines 438-466).  Returns the
parsed input, the raw bytes appended to `raw_tx_data`, and the new
cursor. -/
def parseInput (data : Bytes) (nth : Nat) :
    Option (InputTransaction × Bytes × Nat) :=
  let prev_tx_hash := pySlice data nth 32
  let n1 := nth + 32
  let prev_tx_index := pySlice data n1 4
  let n2 := n1 + 4
  match parse_var_len_int data n2 with
  | none => none
  | some (script_size, nb) =>
    let lenBytes := pySlice data n2 nb
    let n3 := n2 + nb
    let script := pySlice data n3 script_size
    let n4 := n3 + script_size
    let seq_num := pySlice data n4 4
    let n5 := n4 + 4
    some (⟨prev_tx_hash, script, seq_num⟩,
      prev_tx_hash ++ prev_tx_index ++ lenBytes ++ script ++ seq_num, n5)

/-- The `for j in range(0, input_tx_count)` loop. -/
def parseInputs (data : Bytes) :
    Nat → Nat → Option (List InputTransaction × Bytes × Nat)
  | 0, nth => some ([], [], nth)
  | c + 1, nth =>
    match parseInput data nth with
    | none => none
    | some (itx, raw, nth') =>
      match parseInputs data c nth' with
      | none => none
      | some (rest, rawRest, nthEnd) =>
          some (itx :: rest, raw ++ rawRest, nthEnd)

/-- One output transaction (blockchain.py lines 477-495). -/
def parseOutput (data : Bytes) (nth : Nat) :
    Option (OutputTransaction × Bytes × Nat) :=
  let satoshi_amount := pySlice data nth 8
  let n1 := nth + 8
  match parse_var_len_int data n1 with
  | none => none
  | some (script_size, nb) =>
    let lenBytes := pySlice data n1 nb
    let n2 := n1 + nb
    let script := pySlice data n2 script_size
    let n3 := n2 + script_size
    some (⟨satoshi_amount, script⟩, satoshi_amount ++ lenBytes ++ script, n3)

/-- The `for j in range(0, output_tx_count)` loop. -/
def parseOutputs (data : Bytes) :
    Nat → Nat → Option (List OutputTransaction × Bytes × Nat)
  | 0, nth => some ([], [], nth)
  | c + 1, nth =>
    match parseOutput data nth with
    | none => none
    | some (otx, raw, nth') =>
      match parseOutputs data c nth' with
      | none => none
      | some (rest, rawRest, nthEnd) =>
          some (otx :: rest, raw ++ rawRest, nthEnd)

/-- One transaction (blockchain.py lines 418-523): parse the fields while
accumulating the exact raw bytes consumed, then compute the txid as the
double hash of those bytes. -/
def parseTransaction (dsha : Bytes → Hash) (data : Bytes) (nth : Nat) :
    Option (Transaction × Nat) :=
  let tx_ver_num := pySlice data nth 4
  let n1 := nth + 4
  match parse_var_len_int data n1 with
  | none => none
  | some (input_tx_count, nbI) =>
    let inCountBytes := pySlice data n1 nbI
    let n2 := n1 + nbI
    match parseInputs data input_tx_count n2 with
    | none => none
    | some (input_txs, rawIns, n3) =>
      match parse_var_len_int data n3 with
      | none => none
      | some (output_tx_count, nbO) =>
        let outCountBytes := pySlice data n3 nbO
        let n4 := n3 + nbO
        match parseOutputs data output_tx_count n4 with
        | none => none
        | some (output_txs, rawOuts, n5) =>
          let locktime := pySlice data n5 4
          let n6 := n5 + 4
          let raw_tx_data := tx_ver_num ++ inCountBytes ++ rawIns ++
            outCountBytes ++ rawOuts ++ locktime
          some (⟨dsha raw_tx_data, tx_ver_num, input_tx_count, input_txs,
            output_tx_count, output_txs, locktime⟩, n6)

/-- The `for i in range(0, tx_count)` loop. -/
def parseTransactions (dsha : Bytes → Hash) (data : Bytes) :
    Nat → Nat → Option (List Transaction × Nat)
  | 0, nth => some ([], nth)
  | c + 1, nth =>
    match parseTransaction dsha data nth with
    | none => none
    | some (tx, nth') =>
      match parseTransactions dsha data c nth' with
      | none => none
      | some (txs, nthEnd) => some (tx :: txs, nthEnd)

/-- `parse_block(block, nth_byte)` plus the index updates it performs.
`some (Except.error e)` models an assertion failure or struct exception
(fatal for the run), `some (Except.ok (block_size, s'))` a successful
parse, and `none` a run that never returns (the Merkle recursion on an
empty transaction list). -/
def parse_block (dsha : Bytes → Hash) (data : Bytes) (nth0 : Nat)
    (s : Store) : Option (Except PErr (Nat × Store)) :=
  if (pySlice data nth0 4).reverse ≠ [0xd9, 0xb4, 0xbe, 0xf9] then
    some (Except.error PErr.BadMagic)
  else
    match unpackLE data (nth0 + 4) 4 with
    | none => some (Except.error PErr.TruncatedInput)
    | some block_size =>
      match parse_var_len_int data (nth0 + 8 + 80) with
      | none => some (Except.error PErr.TruncatedInput)
      | some (tx_count, nb) =>
        match parseTransactions dsha data tx_count (nth0 + 8 + 80 + nb) with
        | none => some (Except.error PErr.TruncatedInput)
        | some (txs, nth_end) =>
          if nth_end - (nth0 + 8) ≠ block_size then
            some (Except.error PErr.SizeMismatch)
          else
            match get_merkle_root dsha (txs.map Transaction.hash).length
              (txs.map Transaction.hash) with
            | none => none
            | some root =>
              if pySlice data (nth0 + 8 + 36) 32 ≠ root then
                some (Except.error PErr.MerkleMismatch)
              else
                some (Except.ok (block_size,
                  storeInsert dsha s
                    ⟨pySlice data (nth0 + 8) 4,
                     pySlice data (nth0 + 8 + 4) 32,
                     pySlice data (nth0 + 8 + 36) 32,
                     pySlice data (nth0 + 8 + 68) 4,
                     pySlice data (nth0 + 8 + 72) 4,
                     pySlice data (nth0 + 8 + 76) 4,
                     tx_count, txs⟩))

/-! ### Block-file loop (`load_file`, blockchain.py lines 550-577) -/

/-- The `while True` loop of `load_file`: parse a record, advance
`header_start` by `4 (magic) + block_size + 4 (trailing padding)`, break
when `header_start + (4 + 4 + 80) >= file_end`.  Returns the list of
record start offsets together with the final store. -/
def load_file_loop (dsha : Bytes → Hash) (data : Bytes) (file_end : Nat) :
    Nat → Nat → Store → Option (Except PErr (List Nat × Store))
  | 0, _, _ => none
  | fuel + 1, header_start, s =>
    match parse_block dsha data header_start s with
    | none => none
    | some (Except.error e) => some (Except.error e)
    | some (Except.ok (block_size, s')) =>
      let next := header_start + (4 + block_size + 4)
      if next + (4 + 4 + 80) ≥ file_end then
        some (Except.ok ([header_start], s'))
      else
        (load_file_loop dsha data file_end fuel next s').map
          (fun r => r.map (fun p => (header_start :: p.1, p.2)))

/-- `load_file(filename)`: the file size is the length of its bytes. -/
def load_file (dsha : Bytes → Hash) (data : Bytes) (fuel : Nat) (s : Store) :
    Option (Except PErr (List Nat × Store)) :=
  load_file_loop dsha data data.length fuel 0 s

/-! ### Concrete material for counterexamples and witnesses -/

/-- A stand-in double hash that sends everything to 32 zero bytes. -/
def dshaZero : Bytes → Hash := fun _ => List.replicate 32 0

/-- A well-formed 99-byte block record: magic, size 91, an all-zero
80-byte header, one transaction with no inputs and no outputs.  Under
`dshaZero` its single txid and the header's Merkle field agree. -/
def blkRecordBytes : Bytes :=
  [0xF9, 0xBE, 0xB4, 0xD9] ++ [91, 0, 0, 0] ++ List.replicate 80 0 ++
    [1] ++ List.replicate 10 0

/-- A 187-byte file: the record above followed by 88 slack bytes, so that
after the decoder's advance to offset 99 exactly 88 bytes remain. -/
def blkFile187 : Bytes := blkRecordBytes ++ List.replicate 88 0

/-! ### Main-chain resolver (`compute_distances_bfs`, blockchain.py
lines 605-645, and `setup`, lines 648-689)

Heights and main-chain flags are attributes the source mutates on block
objects; here they are maps keyed by the block's ingestion index. -/

/-- The mutable locals of `compute_distances_bfs` together with the
height attributes it assigns. -/
structure BfsState where
  queue : List Hash
  distances : List (Hash × Nat)
  heights : List (Nat × Nat)
  max_distance : Int
  max_hash : Hash
deriving DecidableEq

/-- The `for block in blocks` body of the BFS: for every not-yet-visited
child hash, enqueue it, record its distance, set the block's height to
`distance - 1`, and update the running maximum when strictly greater. -/
def bfsVisit (dsha : Bytes → Hash) (blocks : List Block) (d : Nat) :
    BfsState → List Nat → BfsState
  | st, [] => st
  | st, id :: ids =>
    match blocks[id]? with
    | none => bfsVisit dsha blocks d st ids
    | some b =>
      match dGet st.distances (b.get_curr_hash_little dsha) with
      | some _ => bfsVisit dsha blocks d st ids
      | none =>
          bfsVisit dsha blocks d
            { queue := st.queue ++ [b.get_curr_hash_little dsha]
              distances := dSet st.distances (b.get_curr_hash_little dsha) (d + 1)
              heights := dSet st.heights id d
              max_distance :=
                if (d + 1 : Int) > st.max_distance then ((d : Int) + 1)
                else st.max_distance
              max_hash :=
                if (d + 1 : Int) > st.max_distance then
                  b.get_curr_hash_little dsha
                else st.max_hash } ids

/-- The `while len(queue) != 0` loop.  `none` models either exhausted
fuel or the (unreachable) `distances[curr_hash]` KeyError. -/
def bfsLoop (dsha : Bytes → Hash) (s : Store) : Nat → BfsState → Option BfsState
  | 0, st => match st.queue with
    | [] => some st
    | _ :: _ => none
  | fuel + 1, st =>
    match st.queue with
    | [] => some st
    | curr_hash :: rest =>
      match dGet s.prev_hash_to_blocks curr_hash with
      | none => bfsLoop dsha s fuel { st with queue := rest }
      | some ids =>
        match dGet st.distances curr_hash with
        | none => none
        | some d =>
            bfsLoop dsha s fuel
              (bfsVisit dsha s.blocks d { st with queue := rest } ids)

/-- Initial BFS state: queue `[source_hash]`, `distances = {source: 0}`,
`max_distance = -1`, `max_hash = ""`. -/
def bfsState0 : BfsState := ⟨[sourceHash], [(sourceHash, 0)], [], -1, []⟩

/-- `compute_distances_bfs()`: returns `(max_hash, max_distance - 1)`;
the final state is carried along for the height/flag attributes. -/
def compute_distances_bfs (dsha : Bytes → Hash) (s : Store) (fuel : Nat) :
    Option (Hash × Int × BfsState) :=
  (bfsLoop dsha s fuel bfsState0).map
    (fun st => (st.max_hash, st.max_distance - 1, st))

/-- First block (in the given id order) whose header hash is `curr`:
the `for block in blocks: if block.get_curr_hash_little() == ...` scans. -/
def findFirstBlock (dsha : Bytes → Hash) (blocks : List Block) (curr : Hash) :
    List Nat → Option Nat
  | [] => none
  | id :: ids =>
    match blocks[id]? with
    | none => findFirstBlock dsha blocks curr ids
    | some b =>
        if b.get_curr_hash_little dsha = curr then some id
        else findFirstBlock dsha blocks curr ids

/-- The `while prev_hash != source_hash` backward walk of `setup`
(lines 670-682): flag the first block matching `curr_hash` among the
children of `prev_hash`, then step to the parent.  Returns the flagged
ids in order; `none` models exhausted fuel or a KeyError. -/
def walkLoop (dsha : Bytes → Hash) (s : Store) :
    Nat → Hash → Hash → List Nat → Option (List Nat)
  | 0, _, _, _ => none
  | fuel + 1, curr_hash, prev_hash, flags =>
    if prev_hash = sourceHash then some flags
    else
      match dGet s.prev_hash_to_blocks prev_hash with
      | none => none
      | some ids =>
        match dGet s.curr_hash_to_prev_hash prev_hash with
        | none => none
        | some prev' =>
            walkLoop dsha s fuel prev_hash prev'
              (match findFirstBlock dsha s.blocks curr_hash ids with
               | some id => flags ++ [id]
               | none => flags)

/-- Result of `setup`: the store, the BFS state (with the height
attributes), the ids flagged `main_chain = True` (the walk's flags plus
the first child of the sentinel, flagged last), and the two globals
`latest_block_little` and `blockchain_height`. -/
structure SetupResult where
  store : Store
  bfs : BfsState
  main_flags : List Nat
  latest_block_little : Hash
  blockchain_height : Int
deriving DecidableEq

/-- `setup(directory_path)` after the files are loaded: run the BFS, walk
backwards from the best tip flagging main-chain blocks, finally flag
`prev_hash_to_blocks[source_hash][0]` (the first-inserted child of the
sentinel). -/
def setup (dsha : Bytes → Hash) (bs : List Block) (fuel : Nat) :
    Option SetupResult :=
  match compute_distances_bfs dsha (ingest dsha bs) fuel with
  | none => none
  | some (longest_hash, longest_chain_height, st) =>
    match dGet (ingest dsha bs).curr_hash_to_prev_hash longest_hash with
    | none => none
    | some prev0 =>
      match walkLoop dsha (ingest dsha bs) fuel longest_hash prev0 [] with
      | none => none
      | some flags =>
        match dGet (ingest dsha bs).prev_hash_to_blocks sourceHash with
        | none => none
        | some [] => none
        | some (g :: _) =>
            some ⟨ingest dsha bs, st, flags ++ [g], longest_hash,
              longest_chain_height⟩

/-- The walk stated by the claims: from a block hash repeatedly follow
`parent_of` (`curr_hash_to_prev_hash`).  `some visited` is the list of
block hashes visited, tip first, when the walk reaches the all-zero
sentinel; `none` when it does not (missing parent or fuel). -/
def chainWalk (s : Store) : Nat → Hash → Option (List Hash)
  | 0, _ => none
  | fuel + 1, h =>
    if h = sourceHash then some []
    else
      match dGet s.curr_hash_to_prev_hash h with
      | none => none
      | some p => (chainWalk s fuel p).map (fun t => h :: t)

/-! ### Binary floating point (CPython `float`, IEEE binary64)

The source computes BTC amounts with Python floats:
`satoshi / 100000000.0` and `btc_amount += ...` are IEEE binary64
operations, each rounding its exact result to a 53-bit significand
(round to nearest, ties to even).  The embedding models a float as a
canonical pair `m * 2^e` with `m` odd (or `m = 0` with `e = 0`) and an
unbounded exponent; every value reachable in this program lies between
`1e-8` and the u64 range, far inside binary64's normal range, where the
unbounded-exponent model coincides with binary64 (no overflow, underflow
or subnormals).  All amounts here are non-negative, so significands are
plain naturals. -/

/-- A binary floating point value `m * 2^e`. -/
structure Fl where
  m : Nat
  e : Int
deriving DecidableEq

/-- Strip factors of two from the significand (fuelled; 64 steps cover
any 53-bit significand plus carry). -/
def normAux : Nat → Nat → Int → Fl
  | 0, m, e => ⟨m, e⟩
  | fuel + 1, m, e => if m % 2 = 0 then normAux fuel (m / 2) (e + 1) else ⟨m, e⟩

/-- Canonical form: odd significand, or `0 * 2^0`. -/
def Fl.norm (m : Nat) (e : Int) : Fl :=
  if m = 0 then ⟨0, 0⟩ else normAux 64 m e

/-- Double the numerator until `n/d` scaled lies above `2^52`
(4503599627370496), tracking the binary exponent. -/
def scaleUp : Nat → Nat → Nat → Int → Nat × Nat × Int
  | 0, n, d, e => (n, d, e)
  | fuel + 1, n, d, e =>
    if n < 4503599627370496 * d then scaleUp fuel (2 * n) d (e - 1)
    else (n, d, e)

/-- Double the denominator until `n/d` scaled lies below `2^53`
(9007199254740992), tracking the binary exponent. -/
def scaleDown : Nat → Nat → Nat → Int → Nat × Nat × Int
  | 0, n, d, e => (n, d, e)
  | fuel + 1, n, d, e =>
    if 9007199254740992 * d ≤ n then scaleDown fuel n (2 * d) (e + 1)
    else (n, d, e)

/-- Round the non-negative rational `n / d` to the nearest 53-bit
binary floating point value, ties to even: scale into `[2^52, 2^53)`,
divide with remainder, round the quotient. -/
def roundRat (n d : Nat) : Fl :=
  if n = 0 ∨ d = 0 then ⟨0, 0⟩
  else
    match scaleUp 4096 n d 0 with
    | (n1, d1, e1) =>
      match scaleDown 4096 n1 d1 e1 with
      | (nn, dd, ee) =>
        let q := nn / dd
        let r := nn % dd
        let m := if 2 * r < dd then q
                 else if dd < 2 * r then q + 1
                 else if q % 2 = 0 then q else q + 1
        Fl.norm m ee

/-- Conversion of a Python integer to a float (rounds above `2^53`). -/
def flOfNat (n : Nat) : Fl := roundRat n 1

/-- The literal `100000000.0` (exactly representable). -/
def fl1e8 : Fl := flOfNat 100000000

/-- Float division: round the exact quotient. -/
def Fl.fdiv (x y : Fl) : Fl :=
  let z := roundRat x.m y.m
  Fl.norm z.m (z.e + (x.e - y.e))

/-- Float addition of non-negative values: align exponents, add the
significands exactly, round. -/
def Fl.fadd (x y : Fl) : Fl :=
  let e := min x.e y.e
  let n := x.m * 2 ^ (x.e - e).toNat + y.m * 2 ^ (y.e - e).toNat
  let z := roundRat n 1
  Fl.norm z.m (z.e + e)

/-- The exact rational value of a float. -/
def Fl.toRat (x : Fl) : Rat :=
  if 0 ≤ x.e then (x.m : Rat) * 2 ^ x.e.toNat
  else (x.m : Rat) / 2 ^ (-x.e).toNat

/-! ### Query accessors (blockchain.py lines 692-963)

Accessors take hashes in display (big-endian) order and convert with
`[::-1]`, i.e. list reversal at the byte level.  BTC amounts are the
float computations of the source, modelled with `Fl` above. -/

/-- `get_curr_hash_big`. -/
def Block.get_curr_hash_big (dsha : Bytes → Hash) (b : Block) : Hash :=
  (b.get_curr_hash_little dsha).reverse

/-- Total BTC of a transaction: `btc_amount = 0.0` then
`btc_amount += satoshi / 100000000.0` over the first `output_tx_count`
outputs (the source indexes `range(count)`), in float arithmetic. -/
def tx_btc_amount (t : Transaction) : Fl :=
  (t.output_txs.take t.output_tx_count).foldl
    (fun acc o => Fl.fadd acc (Fl.fdiv (flOfNat o.get_satoshi_int) fl1e8))
    ⟨0, 0⟩

/-- `get_block_height(block_hash_big)`: -1 when unknown, else the found
block's height attribute (default 0, as initialised). -/
def get_block_height (dsha : Bytes → Hash) (s : Store)
    (heights : List (Nat × Nat)) (block_hash_big : Hash) : Int :=
  match dGet s.curr_hash_to_prev_hash block_hash_big.reverse with
  | none => -1
  | some prev_hash =>
    match dGet s.prev_hash_to_blocks prev_hash with
    | none => -1
    | some ids =>
      match findFirstBlock dsha s.blocks block_hash_big.reverse ids with
      | none => -1
      | some id => ((dGet heights id).getD 0 : Nat)

/-- `get_main_chain(block_hash_big)`: `False` when unknown, else the
found block's `main_chain` attribute. -/
def get_main_chain (dsha : Bytes → Hash) (s : Store) (flags : List Nat)
    (block_hash_big : Hash) : Bool :=
  match dGet s.curr_hash_to_prev_hash block_hash_big.reverse with
  | none => false
  | some prev_hash =>
    match dGet s.prev_hash_to_blocks prev_hash with
    | none => false
    | some ids =>
      match findFirstBlock dsha s.blocks block_hash_big.reverse ids with
      | none => false
      | some id => flags.contains id

/-- `get_block_header(block_hash_big)`: the six header fields, or the
`(-1, "", "", -1, -1, -1)` sentinel when unknown. -/
def get_block_header (dsha : Bytes → Hash) (s : Store)
    (block_hash_big : Hash) : Int × Bytes × Bytes × Int × Int × Int :=
  match dGet s.curr_hash_to_prev_hash block_hash_big.reverse with
  | none => (-1, [], [], -1, -1, -1)
  | some prev_hash =>
    match dGet s.prev_hash_to_blocks prev_hash with
    | none => (-1, [], [], -1, -1, -1)
    | some ids =>
      match findFirstBlock dsha s.blocks block_hash_big.reverse ids with
      | none => (-1, [], [], -1, -1, -1)
      | some id =>
        match s.blocks[id]? with
        | none => (-1, [], [], -1, -1, -1)
        | some b =>
            ((leVal b.version : Int), b.previous_block_header_hash.reverse,
              b.merkle_root_hash.reverse, (leVal b.start_time : Int),
              (leVal b.nBits : Int), (leVal b.nonce : Int))

/-- `get_block_transactions(block_hash_big)`: `(-1, [])` when unknown,
else the transaction count and the `(txid_display, total_btc)` pairs. -/
def get_block_transactions (dsha : Bytes → Hash) (s : Store)
    (block_hash_big : Hash) : Int × List (Bytes × Fl) :=
  match dGet s.curr_hash_to_prev_hash block_hash_big.reverse with
  | none => (-1, [])
  | some prev_hash =>
    match dGet s.prev_hash_to_blocks prev_hash with
    | none => (-1, [])
    | some ids =>
      match findFirstBlock dsha s.blocks block_hash_big.reverse ids with
      | none => (-1, [])
      | some id =>
        match s.blocks[id]? with
        | none => (-1, [])
        | some b =>
            ((b.tx_count : Int),
              (b.txs.take b.tx_count).map
                (fun t => (t.hash.reverse, tx_btc_amount t)))

/-- The nested `for block in blocks: for i in range(count)` scan of the
transaction accessors: first block among the ids whose first
`tx_count` transactions contain the txid, with that transaction. -/
def txScanBlocks (dsha : Bytes → Hash) (blocks : List Block)
    (tx_hash_little : Hash) : List Nat → Option (Block × Transaction)
  | [] => none
  | id :: ids =>
    match blocks[id]? with
    | none => txScanBlocks dsha blocks tx_hash_little ids
    | some b =>
      match (b.txs.take b.tx_count).find?
          (fun t => decide (t.hash = tx_hash_little)) with
      | some t => some (b, t)
      | none => txScanBlocks dsha blocks tx_hash_little ids

/-- `get_transaction_info(tx_hash_big)`: containing block hash (display),
version, input count, output count, total BTC, locktime; the
`("", -1, -1, -1, 0.0, -1)` sentinel when unknown. -/
def get_transaction_info (dsha : Bytes → Hash) (s : Store)
    (tx_hash_big : Hash) : Bytes × Int × Int × Int × Fl × Int :=
  match dGet s.txid_to_prev_hash tx_hash_big.reverse with
  | none => ([], -1, -1, -1, ⟨0, 0⟩, -1)
  | some prev_hash =>
    match dGet s.prev_hash_to_blocks prev_hash with
    | none => ([], -1, -1, -1, ⟨0, 0⟩, -1)
    | some ids =>
      match txScanBlocks dsha s.blocks tx_hash_big.reverse ids with
      | none => ([], -1, -1, -1, ⟨0, 0⟩, -1)
      | some (b, t) =>
          (b.get_curr_hash_big dsha, (leVal t.version : Int),
            (t.input_tx_count : Int), (t.output_tx_count : Int),
            tx_btc_amount t, (leVal t.locktime : Int))

/-- `get_transaction_inputs(tx_hash_big)`: `(-1, [])` when unknown, else
the input count and `(prev_txid_display, script_display, sequence)`
triples. -/
def get_transaction_inputs (dsha : Bytes → Hash) (s : Store)
    (tx_hash_big : Hash) : Int × List (Bytes × Bytes × Int) :=
  match dGet s.txid_to_prev_hash tx_hash_big.reverse with
  | none => (-1, [])
  | some prev_hash =>
    match dGet s.prev_hash_to_blocks prev_hash with
    | none => (-1, [])
    | some ids =>
      match txScanBlocks dsha s.blocks tx_hash_big.reverse ids with
      | none => (-1, [])
      | some (_, t) =>
          ((t.input_tx_count : Int),
            (t.input_txs.take t.input_tx_count).map
              (fun i => (i.prev_tx_hash.reverse, i.script.reverse,
                (leVal i.seq_num : Int))))

/-- `get_transaction_outputs(tx_hash_big)`: `(-1, [])` when unknown, else
the output count and `(satoshi / 100000000.0, script_display)` pairs —
note the division: the source converts to BTC here. -/
def get_transaction_outputs (dsha : Bytes → Hash) (s : Store)
    (tx_hash_big : Hash) : Int × List (Fl × Bytes) :=
  match dGet s.txid_to_prev_hash tx_hash_big.reverse with
  | none => (-1, [])
  | some prev_hash =>
    match dGet s.prev_hash_to_blocks prev_hash with
    | none => (-1, [])
    | some ids =>
      match txScanBlocks dsha s.blocks tx_hash_big.reverse ids with
      | none => (-1, [])
      | some (_, t) =>
          ((t.output_tx_count : Int),
            (t.output_txs.take t.output_tx_count).map
              (fun o => (Fl.fdiv (flOfNat o.get_satoshi_int) fl1e8,
                o.script.reverse)))

/-! ### Invariant vocabulary used by the resolver proofs -/

/-- Left fold tracking `(max_distance, max_hash)` over a sequence of
discovered `(hash, distance)` entries: update exactly when the new
distance is strictly greater. -/
def runMax : List (Hash × Nat) → Int × Hash → Int × Hash
  | [], p => p
  | (h, d) :: rest, (m, mh) =>
      runMax rest (if (d : Int) > m then ((d : Int), h) else (m, mh))

/-- Well-formedness of a store, as established by `ingest`: children
lists are non-empty and point to blocks with the matching parent hash;
every block is listed under its parent; every `curr → prev` binding comes
from a stored block; every txid binding points at a parent hash whose
children include a block containing the transaction. -/
structure StoreWF (dsha : Bytes → Hash) (s : Store) : Prop where
  children : ∀ h ids, dGet s.prev_hash_to_blocks h = some ids →
    ids ≠ [] ∧ ∀ id ∈ ids, ∃ b : Block, s.blocks[id]? = some b ∧
      b.previous_block_header_hash = h
  registered : ∀ id b, s.blocks[id]? = some b →
    ∃ ids, dGet s.prev_hash_to_blocks b.previous_block_header_hash =
      some ids ∧ id ∈ ids
  parent_map : ∀ h p, dGet s.curr_hash_to_prev_hash h = some p →
    ∃ id : Nat, ∃ b : Block, s.blocks[id]? = some b ∧ b.get_curr_hash_little dsha = h ∧
      b.previous_block_header_hash = p
  txid_map : ∀ t p, dGet s.txid_to_prev_hash t = some p →
    ∃ ids, dGet s.prev_hash_to_blocks p = some ids ∧
      ∃ id ∈ ids, ∃ b : Block, ∃ tx : Transaction,
        s.blocks[id]? = some b ∧ tx ∈ b.txs ∧ tx.hash = t

/-- Invariant of the BFS state: the sentinel is bound to 0 and is the only
hash with distance 0; every hash at distance `d ≥ 1` is the header hash
of a stored block whose parent hash is bound to `d - 1` and whose height
attribute is `d - 1`; every height attribute is consistent with the
distances; the distance list is the sentinel binding followed by the
added entries in discovery order, over which `runMax` yields the running
maximum pair. -/
structure BfsInv (dsha : Bytes → Hash) (s : Store) (st : BfsState) : Prop where
  keys_nodup : (st.distances.map Prod.fst).Nodup
  src_zero : dGet st.distances sourceHash = some 0
  zero_only : ∀ h d, dGet st.distances h = some d → d = 0 → h = sourceHash
  parents : ∀ h d, dGet st.distances h = some d → 1 ≤ d →
    ∃ id : Nat, ∃ b : Block, s.blocks[id]? = some b ∧ b.get_curr_hash_little dsha = h ∧
      dGet st.distances b.previous_block_header_hash = some (d - 1) ∧
      dGet st.heights id = some (d - 1)
  heights_dom : ∀ id hg, dGet st.heights id = some hg →
    ∃ b : Block, s.blocks[id]? = some b ∧
      dGet st.distances (b.get_curr_hash_little dsha) = some (hg + 1)
  shape : ∃ tl, st.distances = (sourceHash, 0) :: tl ∧
    (st.max_distance, st.max_hash) = runMax tl (-1, [])

/-- Monotone extension between BFS states: bindings already present in
the distances and heights maps persist. -/
def BfsExt (st st' : BfsState) : Prop :=
  (∀ h d, dGet st.distances h = some d → dGet st'.distances h = some d) ∧
  (∀ id hg, dGet st.heights id = some hg → dGet st'.heights id = some hg)

/-- The identity function as a stand-in hash for resolver witnesses:
distinct headers get distinct "hashes". -/
def dId : Bytes → Hash := fun l => l

/-- Genesis-like block A (parent: the sentinel). -/
def wBlockA : Block := ⟨[1], sourceHash, [], [], [], [], 0, []⟩

/-- Block B extending A. -/
def wBlockB : Block :=
  ⟨[2], wBlockA.get_curr_hash_little dId, [], [], [], [], 0, []⟩

/-- Block B' also extending A (equal-depth fork). -/
def wBlockB2 : Block :=
  ⟨[3], wBlockA.get_curr_hash_little dId, [], [], [], [], 0, []⟩

/-- Equal-depth fork `A→B`, `A→B'` in ingestion order. -/
def wFork : List Block := [wBlockA, wBlockB, wBlockB2]

/-- A second child of the sentinel (a competing genesis). -/
def cG2 : Block := ⟨[2], sourceHash, [], [], [], [], 0, []⟩

/-- A block extending the second sentinel child. -/
def cB : Block := ⟨[3], cG2.get_curr_hash_little dId, [], [], [], [], 0, []⟩

/-- Block set whose sentinel has two children, with the longest chain
passing through the SECOND one. -/
def cChain : List Block := [wBlockA, cG2, cB]

/-- A transaction with one 5-satoshi output, txid 32 bytes of 1. -/
def wTx : Transaction :=
  ⟨List.replicate 32 1, [0, 0, 0, 0], 0, [], 1,
    [⟨[5, 0, 0, 0, 0, 0, 0, 0], [7]⟩], [0, 0, 0, 0]⟩

/-- A block holding `wTx`, child of the sentinel. -/
def wTxBlock : Block :=
  ⟨[1], sourceHash, List.replicate 32 1, [], [], [], 1, [wTx]⟩

/-- A transaction with two outputs of 10000000 and 20000000 satoshi
(0.1 BTC and 0.2 BTC; amount bytes little-endian). -/
def wTx2 : Transaction :=
  ⟨List.replicate 32 2, [0, 0, 0, 0], 0, [], 2,
    [⟨[128, 150, 152, 0, 0, 0, 0, 0], [7]⟩,
     ⟨[0, 45, 49, 1, 0, 0, 0, 0], [8]⟩], [0, 0, 0, 0]⟩

/-! ### HTTP hash validation (server.py, `do_GET` lines 72-96)

The handler checks `len(hash) == 64` and then that Python 2's
`int(hash, 16)` does not raise; on failure it sends HTTP 400 before any
lookup.  `int(s, 16)` is a library call, modelled here by its documented
behaviour: strip ASCII whitespace at both ends, allow one optional sign,
an optional `0x`/`0X` prefix, then at least one hex digit of either case
and nothing else. -/

/-- ASCII whitespace as stripped by Python's `int()`. -/
def pyIsSpace (c : Char) : Bool :=
  decide (c.toNat = 32 ∨ c.toNat = 9 ∨ c.toNat = 10 ∨ c.toNat = 13 ∨
    c.toNat = 11 ∨ c.toNat = 12)

/-- A hexadecimal digit of either case. -/
def isHexDigitChar (c : Char) : Bool :=
  decide ((48 ≤ c.toNat ∧ c.toNat ≤ 57) ∨ (97 ≤ c.toNat ∧ c.toNat ≤ 102) ∨
    (65 ≤ c.toNat ∧ c.toNat ≤ 70))

/-- A lowercase hexadecimal digit. -/
def isLowerHexChar (c : Char) : Bool :=
  decide ((48 ≤ c.toNat ∧ c.toNat ≤ 57) ∨ (97 ≤ c.toNat ∧ c.toNat ≤ 102))

/-- The spec's input format: a 64-character lowercase hex string. -/
def isLowerHex64 (s : List Char) : Bool :=
  decide (s.length = 64) && s.all isLowerHexChar

/-- Modelled from the documented behaviour of Python 2 `int(s, 16)`:
`True` exactly when the call succeeds. -/
def pyInt16Accepts (s : List Char) : Bool :=
  let t1 := ((s.dropWhile pyIsSpace).reverse.dropWhile pyIsSpace).reverse
  let t2 := match t1 with
            | [] => ([] : List Char)
            | c :: rest => if c = '+' ∨ c = '-' then rest else t1
  let t3 := match t2 with
            | c0 :: x :: rest =>
                if c0 = '0' ∧ (x = 'x' ∨ x = 'X') then rest else t2
            | _ => t2
  decide (t3 ≠ []) && t3.all isHexDigitChar

/-- The format check of `do_GET` for endpoints taking a hash parameter. -/
def validate_hash_query (s : List Char) : Bool :=
  decide (s.length = 64) && pyInt16Accepts s

/-- Value of a hex digit character. -/
def hexDigitValue (c : Char) : Option Nat :=
  if 48 ≤ c.toNat ∧ c.toNat ≤ 57 then some (c.toNat - 48)
  else if 97 ≤ c.toNat ∧ c.toNat ≤ 102 then some (c.toNat - 87)
  else if 65 ≤ c.toNat ∧ c.toNat ≤ 70 then some (c.toNat - 55)
  else none

/-- `s.decode('hex')`: pairs of hex digits (either case) to bytes;
`none` models the exception on odd length or a non-hex character. -/
def hexDecode : List Char → Option Bytes
  | [] => some []
  | c1 :: c2 :: rest =>
    match hexDigitValue c1, hexDigitValue c2, hexDecode rest with
    | some hi, some lo, some bs => some ((16 * hi + lo) :: bs)
    | _, _, _ => none
  | _ => none

/-- Outcome of one request to a hash endpoint. -/
inductive QueryResponse where
  | badRequest
  | serverError
  | ok (height : Int)
deriving DecidableEq

/-- The blockheight endpoint of `do_GET`, thinned to validation plus
lookup: HTTP 400 before any lookup unless the format check passes, a
server error if the validated string still fails hex decoding, else the
core lookup. -/
def handle_blockheight (dsha : Bytes → Hash) (s : Store)
    (heights : List (Nat × Nat)) (q : List Char) : QueryResponse :=
  if validate_hash_query q then
    match hexDecode q with
    | some bytes => QueryResponse.ok (get_block_height dsha s heights bytes)
    | none => QueryResponse.serverError
  else QueryResponse.badRequest

/-!  ********************  THEOREMS  ******************** -/

theorem dGet_dSet_self {α β : Type} [DecidableEq α] (m : List (α × β)) (k : α) (v : β) :
    dGet (dSet m k v) k = some v := by
  induction m with
  | nil => simp [dSet, dGet]
  | cons p m ih =>
      obtain ⟨k', v'⟩ := p
      by_cases h : k' = k
      · simp [dSet, h, dGet]
      · simp [dSet, h, dGet, ih]

theorem dGet_dSet_ne {α β : Type} [DecidableEq α] (m : List (α × β)) (k k' : α) (v : β)
    (h : k ≠ k') : dGet (dSet m k v) k' = dGet m k' := by
  induction m with
  | nil => simp [dSet, dGet, h]
  | cons p m ih =>
      obtain ⟨k₀, v₀⟩ := p
      by_cases hk : k₀ = k
      · subst hk
        simp [dSet, dGet, h]
      · by_cases hk' : k₀ = k'
        · subst hk'
          simp [dSet, hk, dGet]
        · simp [dSet, hk, dGet, hk', ih]

/-- When the key is fresh, `dSet` appends the binding at the end. -/
theorem dSet_fresh {α β : Type} [DecidableEq α] (m : List (α × β)) (k : α) (v : β)
    (h : dGet m k = none) : dSet m k v = m ++ [(k, v)] := by
  induction m with
  | nil => simp [dSet]
  | cons p m ih =>
      obtain ⟨k₀, v₀⟩ := p
      by_cases hk : k₀ = k
      · simp [dGet, hk] at h
      · simp [dGet, hk] at h
        simp [dSet, hk, ih h]

theorem dGet_mem {α β : Type} [DecidableEq α] {m : List (α × β)} {k : α} {v : β}
    (h : dGet m k = some v) : (k, v) ∈ m := by
  induction m with
  | nil => simp [dGet] at h
  | cons p m ih =>
      obtain ⟨k₀, v₀⟩ := p
      by_cases hk : k₀ = k
      · subst hk
        simp [dGet] at h
        simp [h]
      · simp [dGet, hk] at h
        exact List.mem_cons_of_mem _ (ih h)

theorem mem_dGet {α β : Type} [DecidableEq α] {m : List (α × β)} {k : α} {v : β}
    (hnd : (m.map Prod.fst).Nodup) (h : (k, v) ∈ m) : dGet m k = some v := by
  induction m with
  | nil => simp at h
  | cons p m ih =>
      obtain ⟨k₀, v₀⟩ := p
      simp only [List.map_cons, List.nodup_cons] at hnd
      rcases List.mem_cons.mp h with h | h
      · cases h
        simp [dGet]
      · have hk : k₀ ≠ k := by
          intro hkk
          subst hkk
          exact hnd.1 (List.mem_map.mpr ⟨(k₀, v), h, rfl⟩)
        simp [dGet, hk]
        exact ih hnd.2 h

theorem dGet_append_left {α β : Type} [DecidableEq α] {m : List (α × β)} {k : α} {v : β}
    (m' : List (α × β)) (h : dGet m k = some v) :
    dGet (m ++ m') k = some v := by
  induction m with
  | nil => simp [dGet] at h
  | cons p m ih =>
      obtain ⟨k₀, v₀⟩ := p
      by_cases hk : k₀ = k
      · subst hk
        simp [dGet] at h ⊢
        exact h
      · simp [dGet, hk] at h ⊢
        exact ih h

theorem pySlice_length_of_le {b : Bytes} {i n : Nat}
    (h : i + n ≤ b.length) : (pySlice b i n).length = n := by
  simp [pySlice]
  omega

theorem pySlice_one {b : Bytes} {i : Nat} (h : i < b.length) :
    pySlice b i 1 = [b.getD i 0] := by
  have hd : b.drop i = b.getD i 0 :: b.drop (i + 1) := by
    rw [List.getD_eq_getElem b 0 h]
    exact List.drop_eq_getElem_cons h
  simp [pySlice, hd]

theorem unpackLE_one {b : Bytes} {i : Nat} (h : i < b.length) :
    unpackLE b i 1 = some (b.getD i 0) := by
  rw [unpackLE]
  simp [pySlice_one h, leVal]

theorem unpackLE_some_of_le {b : Bytes} {i n : Nat} (h : i + n ≤ b.length) :
    unpackLE b i n = some (leVal (pySlice b i n)) := by
  rw [unpackLE]
  simp [pySlice_length_of_le h]

theorem byteBounded_getD {b : Bytes} {i : Nat} (hb : ByteBounded b)
    (h : i < b.length) : b.getD i 0 < 256 := by
  rw [List.getD_eq_getElem b 0 h]
  exact hb _ (List.getElem_mem h)

/-- C5: `parse_var_len_int` decodes the four CompactSize cases as
specified — `(b, 1)` for a first byte `b < 0xFD`, the following
little-endian u16/u32/u64 with total widths 3/5/9 for markers
0xFD/0xFE/0xFF — and, the four cases being exhaustive over a byte, the
defensive fifth branch (`UnknownCompactSizeMarker`, result `(0, 0)`) is
unreachable: no result ever has width 0. -/
theorem parse_var_len_int_cases (block : Bytes) (nth : Nat)
    (hb : ByteBounded block) (h1 : nth < block.length) :
    (block.getD nth 0 < 0xFD →
      parse_var_len_int block nth = some (block.getD nth 0, 1)) ∧
    (block.getD nth 0 = 0xFD → nth + 3 ≤ block.length →
      parse_var_len_int block nth =
        some (leVal (pySlice block (nth + 1) 2), 3)) ∧
    (block.getD nth 0 = 0xFE → nth + 5 ≤ block.length →
      parse_var_len_int block nth =
        some (leVal (pySlice block (nth + 1) 4), 5)) ∧
    (block.getD nth 0 = 0xFF → nth + 9 ≤ block.length →
      parse_var_len_int block nth =
        some (leVal (pySlice block (nth + 1) 8), 9)) ∧
    (∀ v n, parse_var_len_int block nth = some (v, n) → n ≠ 0) := by
  have hbyte : block.getD nth 0 < 256 := byteBounded_getD hb h1
  have hunf : parse_var_len_int block nth =
      (if block.getD nth 0 < 0xFD then some (block.getD nth 0, 1)
       else if block.getD nth 0 = 0xFD then
         (unpackLE block (nth + 1) 2).map (fun d => (d, 3))
       else if block.getD nth 0 = 0xFE then
         (unpackLE block (nth + 1) 4).map (fun d => (d, 5))
       else if block.getD nth 0 = 0xFF then
         (unpackLE block (nth + 1) 8).map (fun d => (d, 9))
       else some (0, 0)) := by
    rw [parse_var_len_int, unpackLE_one h1]
  refine ⟨fun h => ?_, fun h h3 => ?_, fun h h5 => ?_, fun h h9 => ?_,
    fun v n hvn => ?_⟩
  · rw [hunf, if_pos h]
  · rw [hunf, if_neg (by omega), if_pos h,
      unpackLE_some_of_le (by omega : nth + 1 + 2 ≤ block.length)]
    rfl
  · rw [hunf, if_neg (by omega), if_neg (by omega), if_pos h,
      unpackLE_some_of_le (by omega : nth + 1 + 4 ≤ block.length)]
    rfl
  · rw [hunf, if_neg (by omega), if_neg (by omega), if_neg (by omega),
      if_pos h, unpackLE_some_of_le (by omega : nth + 1 + 8 ≤ block.length)]
    rfl
  · rw [hunf] at hvn
    split_ifs at hvn with hc1 hc2 hc3 hc4
    · cases hvn
      omega
    · rw [Option.map_eq_some'] at hvn
      obtain ⟨d, _, hd⟩ := hvn
      cases hd
      omega
    · rw [Option.map_eq_some'] at hvn
      obtain ⟨d, _, hd⟩ := hvn
      cases hd
      omega
    · rw [Option.map_eq_some'] at hvn
      obtain ⟨d, _, hd⟩ := hvn
      cases hd
      omega
    · omega

/-- Witness for C5: decoding a concrete 0xFD-marked buffer. -/
theorem parse_var_len_int_cases_witness :
    parse_var_len_int [0xFD, 0x34, 0x12] 0 = some (0x1234, 3) := by
  have h := (parse_var_len_int_cases [0xFD, 0x34, 0x12] 0 (by decide)
    (by decide)).2.1 (by decide) (by decide)
  rw [h]
  decide

/-! ### Merkle lemmas -/

theorem merklePass_nil (dsha : Bytes → Hash) : merklePass dsha [] = [] := by
  simp [merklePass]

theorem merklePass_single (dsha : Bytes → Hash) (a : Hash) :
    merklePass dsha [a] = [] := by
  simp [merklePass]

theorem merklePass_cons_cons (dsha : Bytes → Hash) (a b : Hash)
    (rest : List Hash) :
    merklePass dsha (a :: b :: rest) = dsha (a ++ b) :: merklePass dsha rest := by
  unfold merklePass
  have hlen : (a :: b :: rest).length / 2 = rest.length / 2 + 1 := by
    simp
    omega
  rw [hlen, List.range_succ_eq_map, List.map_cons, List.map_map]
  congr 1

theorem merklePass_eq_specStep (dsha : Bytes → Hash) (cs : List Hash) :
    merklePass dsha cs = merkleSpecStep dsha cs := by
  generalize hn : cs.length = n
  induction n using Nat.strong_induction_on generalizing cs with
  | _ n ih =>
      match cs with
      | [] => simp [merklePass_nil, merkleSpecStep]
      | [a] => simp [merklePass_single, merkleSpecStep]
      | a :: b :: rest =>
          simp only [List.length_cons] at hn
          rw [merklePass_cons_cons, merkleSpecStep,
            ih rest.length (by omega) rest rfl]

theorem merklePass_length (dsha : Bytes → Hash) (cs : List Hash) :
    (merklePass dsha cs).length = cs.length / 2 := by
  simp [merklePass]

/-- C1 (first half): the code's Merkle recursion coincides with the
reference recursion written from the words of spec section 4.2.1, at every
fuel and on every list of hashes. -/
theorem get_merkle_root_eq_spec (dsha : Bytes → Hash) :
    ∀ fuel cs, get_merkle_root dsha fuel cs = merkleSpecRoot dsha fuel cs := by
  intro fuel
  induction fuel with
  | zero => intro cs; rfl
  | succ fuel ih =>
      intro cs
      rw [get_merkle_root, merkleSpecRoot]
      by_cases h1 : cs.length = 1
      · simp [h1]
      · simp only [h1, if_false]
        rw [merklePass_eq_specStep, ih]

/-- `get_merkle_root` finishes within `|H|` rounds on a non-empty list. -/
theorem get_merkle_root_isSome (dsha : Bytes → Hash) :
    ∀ fuel cs, 1 ≤ cs.length → cs.length ≤ fuel →
      (get_merkle_root dsha fuel cs).isSome := by
  intro fuel
  induction fuel with
  | zero => intro cs h1 h2; omega
  | succ fuel ih =>
      intro cs h1 h2
      rw [get_merkle_root]
      by_cases hone : cs.length = 1
      · simp [hone]
      · simp only [hone, if_false]
        set padded : List Hash :=
          if cs.length % 2 = 1 then cs ++ [cs.getD (cs.length - 1) []] else cs
          with hp
        have hplen : padded.length = cs.length ∨ padded.length = cs.length + 1 := by
          rw [hp]
          by_cases hodd : cs.length % 2 = 1 <;> simp [hodd]
        have hnext : (merklePass dsha padded).length = padded.length / 2 :=
          merklePass_length dsha padded
        apply ih
        · omega
        · omega

/-- On the empty list `get_merkle_root` never returns, whatever the fuel:
every round maps the empty list to itself. -/
theorem get_merkle_root_nil (dsha : Bytes → Hash) :
    ∀ fuel, get_merkle_root dsha fuel [] = none := by
  intro fuel
  induction fuel with
  | zero => rfl
  | succ fuel ih =>
      rw [get_merkle_root]
      simp [merklePass_nil, ih]

/-! ### Decoder lemmas: C1 (second half), C10, C6 -/

theorem parseTransactions_length (dsha : Bytes → Hash) (data : Bytes) :
    ∀ c nth txs e, parseTransactions dsha data c nth = some (txs, e) →
      txs.length = c := by
  intro c
  induction c with
  | zero =>
      intro nth txs e h
      simp only [parseTransactions, Option.some.injEq, Prod.mk.injEq] at h
      rw [← h.1]
      rfl
  | succ c ih =>
      intro nth txs e h
      simp only [parseTransactions] at h
      split at h
      · cases h
      · rename_i tx nth' heq
        split at h
        · cases h
        · rename_i txs' nthEnd heq'
          simp only [Option.some.injEq, Prod.mk.injEq] at h
          rw [← h.1]
          simp [ih _ _ _ heq']


theorem parse_block_ok_inv {dsha : Bytes → Hash} {data : Bytes} {nth0 : Nat}
    {s : Store} {bs : Nat} {s' : Store}
    (h : parse_block dsha data nth0 s = some (Except.ok (bs, s'))) :
    ∃ b : Block, s' = storeInsert dsha s b ∧
      b.tx_count = b.txs.length ∧ 1 ≤ b.tx_count ∧
      get_merkle_root dsha b.txs.length (b.txs.map Transaction.hash) =
        some b.merkle_root_hash := by
  rw [parse_block] at h
  by_cases hmag : (pySlice data nth0 4).reverse ≠ [0xd9, 0xb4, 0xbe, 0xf9]
  · simp only [if_pos hmag] at h
    simp at h
  · simp only [if_neg hmag] at h
    rcases hbs : unpackLE data (nth0 + 4) 4 with _ | block_size
    · simp only [hbs] at h
      simp at h
    · simp only [hbs] at h
      rcases hvar : parse_var_len_int data (nth0 + 8 + 80) with _ | ⟨tx_count, nb⟩
      · simp only [hvar] at h
        simp at h
      · simp only [hvar] at h
        rcases htxs : parseTransactions dsha data tx_count (nth0 + 8 + 80 + nb)
          with _ | ⟨txs, nth_end⟩
        · simp only [htxs] at h
          simp at h
        · simp only [htxs] at h
          by_cases hsize : nth_end - (nth0 + 8) ≠ block_size
          · simp only [if_pos hsize] at h
            simp at h
          · simp only [if_neg hsize] at h
            rcases hroot : get_merkle_root dsha (txs.map Transaction.hash).length
              (txs.map Transaction.hash) with _ | root
            · simp only [hroot] at h
              simp at h
            · simp only [hroot] at h
              by_cases hmerk : pySlice data (nth0 + 8 + 36) 32 ≠ root
              · simp only [if_pos hmerk] at h
                simp at h
              · simp only [if_neg hmerk] at h
                simp only [Option.some.injEq, Except.ok.injEq,
                  Prod.mk.injEq] at h
                obtain ⟨hbs', hs'⟩ := h
                have hlen : txs.length = tx_count :=
                  parseTransactions_length dsha data _ _ _ _ htxs
                have hne : txs ≠ [] := by
                  intro hnil
                  subst hnil
                  simp only [List.map_nil, List.length_nil] at hroot
                  cases hroot
                have h1le : 1 ≤ txs.length := by
                  cases txs with
                  | nil => exact absurd rfl hne
                  | cons t ts => simp
                refine ⟨⟨pySlice data (nth0 + 8) 4,
                  pySlice data (nth0 + 8 + 4) 32,
                  pySlice data (nth0 + 8 + 36) 32,
                  pySlice data (nth0 + 8 + 68) 4,
                  pySlice data (nth0 + 8 + 72) 4,
                  pySlice data (nth0 + 8 + 76) 4,
                  tx_count, txs⟩, hs'.symm, ?_, ?_, ?_⟩
                · simpa using hlen.symm
                · simpa [← hlen] using h1le
                · simp only []
                  have hfuel : (txs.map Transaction.hash).length = txs.length := by
                    simp
                  rw [hfuel] at hroot
                  rw [hroot]
                  simp only [Option.some.injEq]
                  push_neg at hmerk
                  exact hmerk.symm

/-- C1: for every non-empty list of txid hashes the Merkle root computed
by `get_merkle_root` (with fuel `|H|`, which suffices) coincides with the
reference recursion of spec section 4.2.1 (`merkleSpecRoot`, modelled from
the spec's words); moreover for every block record that `parse_block`
accepts, the root computed over the block's ordered txids equals the
`merkle_root` field of its header. -/
theorem merkle_conformance (dsha : Bytes → Hash) :
    (∀ cs : List Hash, cs ≠ [] →
      get_merkle_root dsha cs.length cs = merkleSpecRoot dsha cs.length cs ∧
      (get_merkle_root dsha cs.length cs).isSome) ∧
    (∀ data nth0 s bs s',
      parse_block dsha data nth0 s = some (Except.ok (bs, s')) →
      ∃ b : Block, s'.blocks = s.blocks ++ [b] ∧
        get_merkle_root dsha b.txs.length (b.txs.map Transaction.hash) =
          some b.merkle_root_hash) := by
  constructor
  · intro cs hne
    refine ⟨get_merkle_root_eq_spec dsha cs.length cs, ?_⟩
    apply get_merkle_root_isSome
    · cases cs with
      | nil => exact absurd rfl hne
      | cons c cs => simp
    · exact le_rfl
  · intro data nth0 s bs s' h
    obtain ⟨b, hb, _, _, hroot⟩ := parse_block_ok_inv h
    exact ⟨b, by rw [hb]; rfl, hroot⟩

/-- C10: `get_merkle_root` terminates (fuel `|H|` suffices) on every
non-empty list; on the empty list it never terminates whatever the fuel;
consequently a successful `parse_block` implies the parsed block carried
at least one transaction. -/
theorem merkle_termination (dsha : Bytes → Hash) :
    (∀ cs : List Hash, cs ≠ [] → (get_merkle_root dsha cs.length cs).isSome) ∧
    (∀ fuel, get_merkle_root dsha fuel [] = none) ∧
    (∀ data nth0 s bs s',
      parse_block dsha data nth0 s = some (Except.ok (bs, s')) →
      ∃ b : Block, s'.blocks = s.blocks ++ [b] ∧ 1 ≤ b.tx_count) := by
  refine ⟨fun cs hne => ?_, get_merkle_root_nil dsha, fun data nth0 s bs s' h => ?_⟩
  · apply get_merkle_root_isSome
    · cases cs with
      | nil => exact absurd rfl hne
      | cons c cs => simp
    · exact le_rfl
  · obtain ⟨b, hb, _, hcnt, _⟩ := parse_block_ok_inv h
    exact ⟨b, by rw [hb]; rfl, hcnt⟩

/-- The concrete 187-byte file parses successfully at offset 0 with
declared block size 91 (shape established by evaluation). -/
theorem blk187_parse_shape :
    (parse_block dshaZero blkFile187 0 emptyStore).map
      (fun r => r.map Prod.fst) = some (Except.ok 91) := by
  decide

/-- Extracting the successful parse of the concrete file. -/
theorem parse_blk187_ok :
    ∃ s', parse_block dshaZero blkFile187 0 emptyStore =
      some (Except.ok (91, s')) := by
  have h := blk187_parse_shape
  cases hp : parse_block dshaZero blkFile187 0 emptyStore with
  | none => rw [hp] at h; cases h
  | some r =>
      cases r with
      | error e => rw [hp] at h; simp [Except.map] at h
      | ok p =>
          obtain ⟨n, s'⟩ := p
          rw [hp] at h
          simp only [Option.map_some', Except.map, Option.some.injEq,
            Except.ok.injEq] at h
          exact ⟨s', by rw [h]⟩

/-- Witness for C1 at concrete inputs: a two-element list, and the
concrete record that `parse_block` accepts. -/
theorem merkle_conformance_witness :
    (get_merkle_root dshaZero 2 [[1], [2]] =
      merkleSpecRoot dshaZero 2 [[1], [2]]) ∧
    ∃ s' b, parse_block dshaZero blkFile187 0 emptyStore =
        some (Except.ok (91, s')) ∧
      s'.blocks = emptyStore.blocks ++ [b] ∧
      get_merkle_root dshaZero b.txs.length (b.txs.map Transaction.hash) =
        some b.merkle_root_hash := by
  constructor
  · exact ((merkle_conformance dshaZero).1 [[1], [2]] (by decide)).1
  · obtain ⟨s', hs⟩ := parse_blk187_ok
    obtain ⟨b, hb, hroot⟩ := (merkle_conformance dshaZero).2 _ _ _ _ _ hs
    exact ⟨s', b, hs, hb, hroot⟩

/-- Witness for C10 at concrete inputs. -/
theorem merkle_termination_witness :
    (get_merkle_root dshaZero 1 [[7]]).isSome ∧
    ∃ s' b, parse_block dshaZero blkFile187 0 emptyStore =
        some (Except.ok (91, s')) ∧
      s'.blocks = emptyStore.blocks ++ [b] ∧ 1 ≤ b.tx_count := by
  constructor
  · exact (merkle_termination dshaZero).1 [[7]] (by decide)
  · obtain ⟨s', hs⟩ := parse_blk187_ok
    obtain ⟨b, hb, hcnt⟩ := (merkle_termination dshaZero).2.2 _ _ _ _ _ hs
    exact ⟨s', b, hs, hb, hcnt⟩

/-- A successful `load_file_loop` run always reports at least one record
offset. -/
theorem load_file_loop_ok_ne_nil {dsha : Bytes → Hash} {data : Bytes}
    {file_end : Nat} :
    ∀ {fuel nth s ps s₂},
      load_file_loop dsha data file_end fuel nth s =
        some (Except.ok (ps, s₂)) → ps ≠ [] := by
  intro fuel nth s ps s₂ h
  match fuel with
  | 0 => cases h
  | fuel + 1 =>
      rw [load_file_loop] at h
      rcases hp : parse_block dsha data nth s with _ | r
      · rw [hp] at h; cases h
      · rw [hp] at h
        cases r with
        | error e => simp at h
        | ok p =>
            obtain ⟨block_size, s'⟩ := p
            simp only at h
            split_ifs at h with hstop
            · simp only [Option.some.injEq, Except.ok.injEq,
                Prod.mk.injEq] at h
              intro hnil
              rw [hnil] at h
              exact List.cons_ne_nil _ _ h.1
            · rcases hin : load_file_loop dsha data file_end fuel
                (nth + (4 + block_size + 4)) s' with _ | r'
              · rw [hin] at h; cases h
              · rw [hin] at h
                cases r' with
                | error e => simp [Except.map] at h
                | ok q =>
                    simp only [Option.map_some', Except.map,
                      Option.some.injEq, Except.ok.injEq,
                      Prod.mk.injEq] at h
                    intro hnil
                    rw [hnil] at h
                    exact List.cons_ne_nil _ _ h.1

/-- C6 (amended): after a successful parse at offset `nth` the cursor
advances by exactly `4 + block_size + 4`; the loop then stops exactly when
at most 88 bytes remain (so also when exactly 88 remain), and otherwise
(at least 89 bytes remaining) it parses another record starting at the
advanced offset. -/
theorem load_file_boundary (dsha : Bytes → Hash) (data : Bytes)
    (file_end fuel nth : Nat) (s : Store) (bs : Nat) (s' : Store)
    (h : parse_block dsha data nth s = some (Except.ok (bs, s'))) :
    (load_file_loop dsha data file_end (fuel + 1) nth s =
        some (Except.ok ([nth], s')) ↔
      file_end ≤ nth + (4 + bs + 4) + 88) ∧
    (nth + (4 + bs + 4) + 88 < file_end →
      load_file_loop dsha data file_end (fuel + 1) nth s =
        (load_file_loop dsha data file_end fuel (nth + (4 + bs + 4)) s').map
          (fun r => r.map (fun p => (nth :: p.1, p.2)))) := by
  have hunf : load_file_loop dsha data file_end (fuel + 1) nth s =
      (if nth + (4 + bs + 4) + (4 + 4 + 80) ≥ file_end then
        some (Except.ok ([nth], s'))
      else
        (load_file_loop dsha data file_end fuel (nth + (4 + bs + 4)) s').map
          (fun r => r.map (fun p => (nth :: p.1, p.2)))) := by
    rw [load_file_loop, h]
  constructor
  · constructor
    · intro hres
      by_contra hgt
      rw [hunf, if_neg (by omega)] at hres
      rcases hin : load_file_loop dsha data file_end fuel
        (nth + (4 + bs + 4)) s' with _ | r'
      · rw [hin] at hres; cases hres
      · rw [hin] at hres
        cases r' with
        | error e => simp [Except.map] at hres
        | ok q =>
            simp only [Option.map_some', Except.map, Option.some.injEq,
              Except.ok.injEq, Prod.mk.injEq] at hres
            have hq1 : q.1 = [] := by simpa using hres.1
            exact load_file_loop_ok_ne_nil hin hq1
    · intro hle
      rw [hunf, if_pos (by omega)]
  · intro hgt
    rw [hunf, if_neg (by omega)]

/-- C6 counterexample: in the concrete 187-byte file a single record is
parsed and the advance lands at offset 99, leaving exactly 88 bytes; the
loop stops there (the offsets list is `[0]` only), although the claim
says another record is parsed whenever 88 or more bytes remain. -/
theorem load_file_stops_with_88_remaining :
    (load_file dshaZero blkFile187 5 emptyStore).map
        (fun r => r.map Prod.fst) = some (Except.ok [0]) ∧
    blkFile187.length = (0 + (4 + 91 + 4)) + 88 := by
  exact ⟨by decide, by decide⟩

/-- Witness for the amended C6 at the concrete file: the stop-iff
instance with exactly 88 bytes remaining. -/
theorem load_file_boundary_witness :
    ∃ s', parse_block dshaZero blkFile187 0 emptyStore =
        some (Except.ok (91, s')) ∧
      (load_file_loop dshaZero blkFile187 187 1 0 emptyStore =
          some (Except.ok ([0], s')) ↔ 187 ≤ 0 + (4 + 91 + 4) + 88) := by
  obtain ⟨s', hs⟩ := parse_blk187_ok
  exact ⟨s', hs,
    (load_file_boundary dshaZero blkFile187 187 0 0 emptyStore 91 s' hs).1⟩

/-! ### Store lemmas -/

theorem blocks_append_lookup {l : List Block} {x b : Block} {id : Nat}
    (h : l[id]? = some x) : (l ++ [b])[id]? = some x := by
  have hlt : id < l.length := by
    rcases List.getElem?_eq_some.mp h with ⟨hlt, _⟩
    exact hlt
  rw [List.getElem?_append_left hlt]
  exact h

theorem blocks_append_cases {l : List Block} {b x : Block} {id : Nat}
    (h : (l ++ [b])[id]? = some x) :
    l[id]? = some x ∨ (id = l.length ∧ x = b) := by
  by_cases hlt : id < l.length
  · rw [List.getElem?_append_left hlt] at h
    exact Or.inl h
  · have hge : l.length ≤ id := by omega
    rw [List.getElem?_append_right hge] at h
    rcases hk : id - l.length with _ | k
    · rw [hk] at h
      simp at h
      exact Or.inr ⟨by omega, h.symm⟩
    · rw [hk] at h
      simp at h

theorem blocks_hash_inj {dsha : Bytes → Hash} {l : List Block}
    (hnd : (l.map (Block.get_curr_hash_little dsha)).Nodup)
    {i j : Nat} {b c : Block} (hi : l[i]? = some b) (hj : l[j]? = some c)
    (hbc : b.get_curr_hash_little dsha = c.get_curr_hash_little dsha) :
    i = j ∧ b = c := by
  have hmi : (l.map (Block.get_curr_hash_little dsha))[i]? =
      some (b.get_curr_hash_little dsha) := by
    rw [List.getElem?_map, hi]
    rfl
  have hmj : (l.map (Block.get_curr_hash_little dsha))[j]? =
      some (c.get_curr_hash_little dsha) := by
    rw [List.getElem?_map, hj]
    rfl
  have hilen : i < (l.map (Block.get_curr_hash_little dsha)).length := by
    rcases List.getElem?_eq_some.mp hmi with ⟨hlt, _⟩
    exact hlt
  have hij : i = j := by
    apply List.getElem?_inj hilen hnd
    rw [hmi, hmj, hbc]
  subst hij
  rw [hi] at hj
  exact ⟨rfl, Option.some.inj hj⟩

theorem foldl_storeInsert_blocks (dsha : Bytes → Hash) :
    ∀ (bs : List Block) (s0 : Store),
      (bs.foldl (storeInsert dsha) s0).blocks = s0.blocks ++ bs := by
  intro bs
  induction bs with
  | nil => intro s0; simp
  | cons b bs ih =>
      intro s0
      rw [List.foldl_cons, ih]
      simp [storeInsert]

theorem ingest_blocks (dsha : Bytes → Hash) (bs : List Block) :
    (ingest dsha bs).blocks = bs := by
  rw [ingest, foldl_storeInsert_blocks]
  rfl

theorem storeInsert_blocks (dsha : Bytes → Hash) (s : Store) (b : Block) :
    (storeInsert dsha s b).blocks = s.blocks ++ [b] := rfl

theorem storeInsert_prev_map (dsha : Bytes → Hash) (s : Store) (b : Block)
    (h : Hash) :
    dGet (storeInsert dsha s b).prev_hash_to_blocks h =
      if h = b.previous_block_header_hash then
        some (((dGet s.prev_hash_to_blocks
          b.previous_block_header_hash).getD []) ++ [s.blocks.length])
      else dGet s.prev_hash_to_blocks h := by
  unfold storeInsert
  rcases hd : dGet s.prev_hash_to_blocks b.previous_block_header_hash
    with _ | ids
  · simp only [hd]
    by_cases hh : h = b.previous_block_header_hash
    · subst hh
      rw [dGet_dSet_self]
      simp
    · rw [dGet_dSet_ne _ _ _ _ (fun he => hh he.symm)]
      simp [hh]
  · simp only [hd]
    by_cases hh : h = b.previous_block_header_hash
    · subst hh
      rw [dGet_dSet_self]
      simp
    · rw [dGet_dSet_ne _ _ _ _ (fun he => hh he.symm)]
      simp [hh]

theorem storeInsert_curr_map (dsha : Bytes → Hash) (s : Store) (b : Block)
    (h : Hash) :
    dGet (storeInsert dsha s b).curr_hash_to_prev_hash h =
      if h = b.get_curr_hash_little dsha then
        some b.previous_block_header_hash
      else dGet s.curr_hash_to_prev_hash h := by
  unfold storeInsert
  by_cases hh : h = b.get_curr_hash_little dsha
  · subst hh
    rw [dGet_dSet_self]
    simp
  · rw [dGet_dSet_ne _ _ _ _ (fun he => hh he.symm)]
    simp [hh]

theorem dGet_txfold {prev : Hash} :
    ∀ (ts : List Transaction) (m : List (Hash × Hash)) (k v : Hash),
      dGet (ts.foldl (fun acc t => dSet acc t.hash prev) m) k = some v →
      dGet m k = some v ∨ (v = prev ∧ ∃ tx ∈ ts, tx.hash = k) := by
  intro ts
  induction ts with
  | nil =>
      intro m k v h
      exact Or.inl h
  | cons t ts ih =>
      intro m k v h
      rw [List.foldl_cons] at h
      rcases ih _ _ _ h with h' | h'
      · by_cases hk : t.hash = k
        · subst hk
          rw [dGet_dSet_self] at h'
          exact Or.inr ⟨(Option.some.inj h').symm, t, by simp⟩
        · rw [dGet_dSet_ne _ _ _ _ hk] at h'
          exact Or.inl h'
      · obtain ⟨hv, tx, htx, hh⟩ := h'
        exact Or.inr ⟨hv, tx, List.mem_cons_of_mem _ htx, hh⟩

theorem storeInsert_txid_map (dsha : Bytes → Hash) (s : Store) (b : Block)
    (k v : Hash)
    (h : dGet (storeInsert dsha s b).txid_to_prev_hash k = some v) :
    dGet s.txid_to_prev_hash k = some v ∨
      (v = b.previous_block_header_hash ∧ ∃ tx ∈ b.txs, tx.hash = k) := by
  exact dGet_txfold b.txs _ _ _ h

theorem storeInsert_WF {dsha : Bytes → Hash} {s : Store}
    (hwf : StoreWF dsha s) (b : Block) :
    StoreWF dsha (storeInsert dsha s b) := by
  constructor
  · intro h ids hids
    rw [storeInsert_prev_map] at hids
    by_cases hh : h = b.previous_block_header_hash
    · rw [if_pos hh] at hids
      subst hh
      obtain rfl := Option.some.inj hids
      constructor
      · simp
      · intro id hid
        rcases List.mem_append.mp hid with hid | hid
        · rcases holds : dGet s.prev_hash_to_blocks
            b.previous_block_header_hash with _ | ids0
          · rw [holds] at hid
            simp at hid
          · rw [holds] at hid
            simp only [Option.getD_some] at hid
            obtain ⟨bo, hbo, hpo⟩ := (hwf.children _ _ holds).2 id hid
            exact ⟨bo, by rw [storeInsert_blocks]; exact blocks_append_lookup hbo, hpo⟩
        · simp at hid
          subst hid
          refine ⟨b, ?_, rfl⟩
          rw [storeInsert_blocks]
          exact List.getElem?_concat_length s.blocks b
    · rw [if_neg hh] at hids
      obtain ⟨hne, hmem⟩ := hwf.children _ _ hids
      refine ⟨hne, fun id hid => ?_⟩
      obtain ⟨bo, hbo, hpo⟩ := hmem id hid
      exact ⟨bo, by rw [storeInsert_blocks]; exact blocks_append_lookup hbo, hpo⟩
  · intro id bo hbo
    rw [storeInsert_blocks] at hbo
    rcases blocks_append_cases hbo with hold | ⟨hid, hbb⟩
    · obtain ⟨ids, hids, hmem⟩ := hwf.registered id bo hold
      rw [storeInsert_prev_map]
      by_cases hh : bo.previous_block_header_hash = b.previous_block_header_hash
      · rw [if_pos hh]
        refine ⟨_, rfl, ?_⟩
        rw [← hh, hids]
        simp [hmem]
      · rw [if_neg hh]
        exact ⟨ids, hids, hmem⟩
    · subst hbb
      subst hid
      rw [storeInsert_prev_map, if_pos rfl]
      refine ⟨_, rfl, ?_⟩
      simp
  · intro h p hp
    rw [storeInsert_curr_map] at hp
    by_cases hh : h = b.get_curr_hash_little dsha
    · rw [if_pos hh] at hp
      obtain rfl := Option.some.inj hp
      refine ⟨s.blocks.length, b, ?_, hh.symm, rfl⟩
      rw [storeInsert_blocks]
      exact List.getElem?_concat_length s.blocks b
    · rw [if_neg hh] at hp
      obtain ⟨id, bo, hbo, hcur, hprev⟩ := hwf.parent_map _ _ hp
      exact ⟨id, bo, by rw [storeInsert_blocks]; exact blocks_append_lookup hbo,
        hcur, hprev⟩
  · intro t p hp
    rcases storeInsert_txid_map dsha s b t p hp with hold | ⟨hpv, tx, htx, hhash⟩
    · obtain ⟨ids, hids, id, hmem, bo, txo, hbo, htxo, hho⟩ := hwf.txid_map _ _ hold
      rw [storeInsert_prev_map]
      by_cases hh : p = b.previous_block_header_hash
      · rw [if_pos hh]
        refine ⟨_, rfl, id, ?_, bo, txo,
          by rw [storeInsert_blocks]; exact blocks_append_lookup hbo, htxo, hho⟩
        rw [← hh, hids]
        simp [hmem]
      · rw [if_neg hh]
        exact ⟨ids, hids, id, hmem, bo, txo,
          by rw [storeInsert_blocks]; exact blocks_append_lookup hbo, htxo, hho⟩
    · subst hpv
      rw [storeInsert_prev_map, if_pos rfl]
      refine ⟨_, rfl, s.blocks.length, by simp, b, tx, ?_, htx, hhash⟩
      rw [storeInsert_blocks]
      exact List.getElem?_concat_length s.blocks b

theorem storeWF_empty (dsha : Bytes → Hash) : StoreWF dsha emptyStore := by
  constructor
  · intro h ids hids
    cases hids
  · intro id b hb
    simp [emptyStore] at hb
  · intro h p hp
    cases hp
  · intro t p hp
    cases hp

theorem storeWF_foldl (dsha : Bytes → Hash) :
    ∀ (bs : List Block) (s0 : Store), StoreWF dsha s0 →
      StoreWF dsha (bs.foldl (storeInsert dsha) s0) := by
  intro bs
  induction bs with
  | nil => intro s0 h; exact h
  | cons b bs ih =>
      intro s0 h
      rw [List.foldl_cons]
      exact ih _ (storeInsert_WF h b)

theorem storeWF_ingest (dsha : Bytes → Hash) (bs : List Block) :
    StoreWF dsha (ingest dsha bs) :=
  storeWF_foldl dsha bs emptyStore (storeWF_empty dsha)

/-- With pairwise distinct header hashes, `curr_hash_to_prev_hash` maps
every stored block's header hash to that block's parent hash. -/
theorem foldl_curr_map_nodup (dsha : Bytes → Hash) :
    ∀ (bs : List Block) (s0 : Store),
      (((s0.blocks ++ bs).map (Block.get_curr_hash_little dsha)).Nodup) →
      (∀ (id : Nat) (b : Block), s0.blocks[id]? = some b →
        dGet s0.curr_hash_to_prev_hash (b.get_curr_hash_little dsha) =
          some b.previous_block_header_hash) →
      ∀ (id : Nat) (b : Block), (bs.foldl (storeInsert dsha) s0).blocks[id]? = some b →
        dGet (bs.foldl (storeInsert dsha) s0).curr_hash_to_prev_hash
          (b.get_curr_hash_little dsha) = some b.previous_block_header_hash := by
  intro bs
  induction bs with
  | nil =>
      intro s0 hnd hpre id b hb
      exact hpre id b hb
  | cons bn bs ih =>
      intro s0 hnd hpre
      rw [List.foldl_cons]
      apply ih (storeInsert dsha s0 bn)
      · rw [storeInsert_blocks]
        rw [List.append_assoc]
        simpa using hnd
      · intro id bo hbo
        rw [storeInsert_blocks] at hbo
        rw [storeInsert_curr_map]
        rcases blocks_append_cases hbo with hold | ⟨hid, hbb⟩
        · have hne : bo.get_curr_hash_little dsha ≠
              bn.get_curr_hash_little dsha := by
            intro he
            have hmem : bo.get_curr_hash_little dsha ∈
                s0.blocks.map (Block.get_curr_hash_little dsha) := by
              apply List.mem_map.mpr
              refine ⟨bo, ?_, rfl⟩
              rcases List.getElem?_eq_some.mp hold with ⟨hlt, hget⟩
              rw [← hget]
              exact List.getElem_mem hlt
            have hmem2 : bn.get_curr_hash_little dsha ∈
                (bn :: bs).map (Block.get_curr_hash_little dsha) := by
              simp
            rw [List.map_append] at hnd
            have hdisj := (List.nodup_append.mp hnd).2.2
            exact hdisj hmem (he ▸ hmem2)
          rw [if_neg hne]
          exact hpre id bo hold
        · subst hbb
          subst hid
          rw [if_pos rfl]

theorem ingest_curr_map_nodup (dsha : Bytes → Hash) (bs : List Block)
    (hnd : (bs.map (Block.get_curr_hash_little dsha)).Nodup) :
    ∀ (id : Nat) (b : Block), (ingest dsha bs).blocks[id]? = some b →
      dGet (ingest dsha bs).curr_hash_to_prev_hash
        (b.get_curr_hash_little dsha) = some b.previous_block_header_hash := by
  apply foldl_curr_map_nodup
  · simpa [emptyStore] using hnd
  · intro id b hb
    simp [emptyStore] at hb

/-! ### BFS lemmas -/

theorem dGet_none_iff {α β : Type} [DecidableEq α] (m : List (α × β)) (k : α) :
    dGet m k = none ↔ k ∉ m.map Prod.fst := by
  induction m with
  | nil => simp [dGet]
  | cons p m ih =>
      obtain ⟨k', v⟩ := p
      by_cases hk : k' = k
      · subst hk
        simp [dGet]
      · have h1 : dGet ((k', v) :: m) k = dGet m k := by simp [dGet, hk]
        rw [h1, ih]
        constructor
        · intro hnm
          simp only [List.map_cons, List.mem_cons]
          push_neg
          exact ⟨fun he => hk he.symm, hnm⟩
        · intro hnm
          simp only [List.map_cons, List.mem_cons] at hnm
          push_neg at hnm
          exact hnm.2

theorem runMax_append (l : List (Hash × Nat)) (x : Hash × Nat) :
    ∀ p : Int × Hash, runMax (l ++ [x]) p =
      (if (x.2 : Int) > (runMax l p).1 then ((x.2 : Int), x.1)
       else runMax l p) := by
  induction l with
  | nil =>
      intro p
      obtain ⟨m, mh⟩ := p
      obtain ⟨h, d⟩ := x
      simp [runMax]
  | cons y l ih =>
      intro p
      obtain ⟨h, d⟩ := y
      obtain ⟨m, mh⟩ := p
      simp only [List.cons_append, runMax]
      exact ih _

theorem runMax_fst_ge (l : List (Hash × Nat)) :
    ∀ p : Int × Hash, p.1 ≤ (runMax l p).1 ∧
      ∀ x ∈ l, (x.2 : Int) ≤ (runMax l p).1 := by
  induction l with
  | nil =>
      intro p
      exact ⟨le_rfl, by simp⟩
  | cons y l ih =>
      intro p
      obtain ⟨h, d⟩ := y
      obtain ⟨m, mh⟩ := p
      simp only [runMax]
      by_cases hc : (d : Int) > m
      · rw [if_pos hc]
        obtain ⟨h1, h2⟩ := ih ((d : Int), h)
        refine ⟨le_trans (le_of_lt hc) h1, fun x hx => ?_⟩
        rcases List.mem_cons.mp hx with rfl | hx
        · exact h1
        · exact h2 x hx
      · rw [if_neg hc]
        obtain ⟨h1, h2⟩ := ih (m, mh)
        refine ⟨h1, fun x hx => ?_⟩
        rcases List.mem_cons.mp hx with rfl | hx
        · push_neg at hc
          exact le_trans hc h1
        · exact h2 x hx

theorem runMax_of_all_le (l : List (Hash × Nat)) :
    ∀ p : Int × Hash, (∀ x ∈ l, (x.2 : Int) ≤ p.1) → runMax l p = p := by
  induction l with
  | nil => intro p _; rfl
  | cons y l ih =>
      intro p hle
      obtain ⟨h, d⟩ := y
      obtain ⟨m, mh⟩ := p
      simp only [runMax]
      have hd : (d : Int) ≤ m := hle (h, d) (by simp)
      rw [if_neg (by omega)]
      exact ih (m, mh) (fun x hx => hle x (List.mem_cons_of_mem _ hx))

/-- `runMax` starting strictly below the final maximum: the final pair is
the overall maximum together with the FIRST entry attaining it. -/
theorem runMax_first (l : List (Hash × Nat)) :
    ∀ p : Int × Hash, p.1 < (runMax l p).1 →
      ∃ d : Nat, (d : Int) = (runMax l p).1 ∧
        l.find? (fun x => decide (d ≤ x.2)) = some ((runMax l p).2, d) ∧
        ∀ x ∈ l, x.2 ≤ d := by
  induction l with
  | nil =>
      intro p hlt
      simp [runMax] at hlt
  | cons y l ih =>
      intro p hlt
      obtain ⟨h, d0⟩ := y
      obtain ⟨m, mh⟩ := p
      simp only [runMax] at hlt ⊢
      by_cases hc : (d0 : Int) > m
      · rw [if_pos hc] at hlt ⊢
        by_cases hstep : ((d0 : Int), h).1 < (runMax l ((d0 : Int), h)).1
        · obtain ⟨d, hd, hfind, hbound⟩ := ih _ hstep
          have hd0d : d0 < d := by
            simp only at hstep
            omega
          refine ⟨d, hd, ?_, fun x hx => ?_⟩
          · rw [List.find?_cons_of_neg _ (by simp; omega), hfind]
          · rcases List.mem_cons.mp hx with rfl | hx
            · simp
              omega
            · exact hbound x hx
        · push_neg at hstep
          have hge := (runMax_fst_ge l ((d0 : Int), h)).1
          have heq : (runMax l ((d0 : Int), h)).1 = (d0 : Int) := le_antisymm hstep hge
          have hallle : ∀ x ∈ l, (x.2 : Int) ≤ (d0 : Int) := by
            intro x hx
            have := (runMax_fst_ge l ((d0 : Int), h)).2 x hx
            omega
          have hconst : runMax l ((d0 : Int), h) = ((d0 : Int), h) :=
            runMax_of_all_le l _ (by simpa using hallle)
          refine ⟨d0, by rw [hconst], ?_, fun x hx => ?_⟩
          · rw [hconst]
            simp [List.find?_cons_of_pos]
          · rcases List.mem_cons.mp hx with rfl | hx
            · simp
            · have := hallle x hx
              omega
      · rw [if_neg hc] at hlt ⊢
        obtain ⟨d, hd, hfind, hbound⟩ := ih _ hlt
        have hd0d : d0 < d := by
          push_neg at hc
          omega
        refine ⟨d, hd, ?_, fun x hx => ?_⟩
        · rw [List.find?_cons_of_neg _ (by simp; omega), hfind]
        · rcases List.mem_cons.mp hx with rfl | hx
          · simp
            omega
          · exact hbound x hx

theorem BfsInv_set_queue {dsha : Bytes → Hash} {s : Store} {st : BfsState}
    (q : List Hash) (h : BfsInv dsha s st) :
    BfsInv dsha s {st with queue := q} :=
  ⟨h.keys_nodup, h.src_zero, h.zero_only, h.parents, h.heights_dom, h.shape⟩

theorem BfsExt_refl (st : BfsState) : BfsExt st st :=
  ⟨fun _ _ h => h, fun _ _ h => h⟩

theorem BfsExt_trans {st₁ st₂ st₃ : BfsState} (h1 : BfsExt st₁ st₂)
    (h2 : BfsExt st₂ st₃) : BfsExt st₁ st₃ :=
  ⟨fun h d hh => h2.1 h d (h1.1 h d hh), fun i g hh => h2.2 i g (h1.2 i g hh)⟩

theorem bfsStep_invariant {dsha : Bytes → Hash} {s : Store} {st : BfsState}
    {curr : Hash} {d : Nat} {id : Nat} {b : Block}
    (hnosent : ∀ (i : Nat) (bb : Block), s.blocks[i]? = some bb →
      bb.get_curr_hash_little dsha ≠ sourceHash)
    (hb : s.blocks[id]? = some b)
    (hprev : b.previous_block_header_hash = curr)
    (hcur : dGet st.distances curr = some d)
    (hfresh : dGet st.distances (b.get_curr_hash_little dsha) = none)
    (hinv : BfsInv dsha s st) (st' : BfsState)
    (hst' : st' =
      { queue := st.queue ++ [b.get_curr_hash_little dsha]
        distances := dSet st.distances (b.get_curr_hash_little dsha) (d + 1)
        heights := dSet st.heights id d
        max_distance :=
          if (d + 1 : Int) > st.max_distance then ((d : Int) + 1)
          else st.max_distance
        max_hash :=
          if (d + 1 : Int) > st.max_distance then b.get_curr_hash_little dsha
          else st.max_hash }) :
    BfsInv dsha s st' ∧ BfsExt st st' := by
  subst hst'
  have hnh_src : b.get_curr_hash_little dsha ≠ sourceHash := hnosent id b hb
  have hcurr_ne : curr ≠ b.get_curr_hash_little dsha := by
    intro he
    rw [he, hfresh] at hcur
    cases hcur
  have hhfresh : dGet st.heights id = none := by
    cases hh : dGet st.heights id with
    | none => rfl
    | some hg =>
        obtain ⟨b', hb', hdist⟩ := hinv.heights_dom id hg hh
        rw [hb] at hb'
        obtain rfl := Option.some.inj hb'
        rw [hfresh] at hdist
        cases hdist
  have hext : BfsExt st
      { queue := st.queue ++ [b.get_curr_hash_little dsha]
        distances := dSet st.distances (b.get_curr_hash_little dsha) (d + 1)
        heights := dSet st.heights id d
        max_distance :=
          if (d + 1 : Int) > st.max_distance then ((d : Int) + 1)
          else st.max_distance
        max_hash :=
          if (d + 1 : Int) > st.max_distance then b.get_curr_hash_little dsha
          else st.max_hash } := by
    constructor
    · intro h dd hdd
      simp only
      have hne : b.get_curr_hash_little dsha ≠ h := by
        intro he
        rw [he, hdd] at hfresh
        cases hfresh
      rw [dGet_dSet_ne _ _ _ _ hne]
      exact hdd
    · intro i hg hhg
      simp only
      have hne : id ≠ i := by
        intro he
        rw [he, hhg] at hhfresh
        cases hhfresh
      rw [dGet_dSet_ne _ _ _ _ hne]
      exact hhg
  refine ⟨?_, hext⟩
  constructor
  · simp only
    rw [dSet_fresh _ _ _ hfresh, List.map_append]
    rw [List.nodup_append]
    refine ⟨hinv.keys_nodup, by simp, ?_⟩
    intro x hx
    simp only [List.map_cons, List.map_nil, List.mem_singleton]
    intro he
    subst he
    exact ((dGet_none_iff _ _).mp hfresh) hx
  · simp only
    rw [dGet_dSet_ne _ _ _ _ hnh_src]
    exact hinv.src_zero
  · intro h dd hdd hdd0
    simp only at hdd
    by_cases hh : b.get_curr_hash_little dsha = h
    · rw [← hh, dGet_dSet_self] at hdd
      obtain rfl := Option.some.inj hdd
      omega
    · rw [dGet_dSet_ne _ _ _ _ hh] at hdd
      exact hinv.zero_only h dd hdd hdd0
  · intro h dd hdd h1le
    simp only at hdd ⊢
    by_cases hh : b.get_curr_hash_little dsha = h
    · rw [← hh, dGet_dSet_self] at hdd
      obtain rfl := Option.some.inj hdd
      refine ⟨id, b, hb, hh, ?_, ?_⟩
      · rw [hprev, dGet_dSet_ne _ _ _ _ (fun he => hcurr_ne he.symm)]
        rw [hcur]
        congr 1
      · rw [dGet_dSet_self]
        congr 1
    · rw [dGet_dSet_ne _ _ _ _ hh] at hdd
      obtain ⟨id', b', hb', hch, hpdist, hpheight⟩ :=
        hinv.parents h dd hdd h1le
      refine ⟨id', b', hb', hch, ?_, ?_⟩
      · have hne : b.get_curr_hash_little dsha ≠
            b'.previous_block_header_hash := by
          intro he
          rw [← he, hfresh] at hpdist
          cases hpdist
        rw [dGet_dSet_ne _ _ _ _ hne]
        exact hpdist
      · have hne : id ≠ id' := by
          intro he
          subst he
          rw [hb] at hb'
          obtain rfl := Option.some.inj hb'
          exact hh hch
        rw [dGet_dSet_ne _ _ _ _ hne]
        exact hpheight
  · intro i hg hi
    simp only at hi ⊢
    by_cases hii : id = i
    · subst hii
      rw [dGet_dSet_self] at hi
      obtain rfl := Option.some.inj hi
      exact ⟨b, hb, by rw [dGet_dSet_self]⟩
    · rw [dGet_dSet_ne _ _ _ _ hii] at hi
      obtain ⟨b'', hb'', hdist''⟩ := hinv.heights_dom i hg hi
      refine ⟨b'', hb'', ?_⟩
      have hne : b.get_curr_hash_little dsha ≠
          b''.get_curr_hash_little dsha := by
        intro he
        rw [← he, hfresh] at hdist''
        cases hdist''
      rw [dGet_dSet_ne _ _ _ _ hne]
      exact hdist''
  · obtain ⟨tl, htl, hmax⟩ := hinv.shape
    refine ⟨tl ++ [(b.get_curr_hash_little dsha, d + 1)], ?_, ?_⟩
    · simp only
      rw [dSet_fresh _ _ _ hfresh, htl]
      rfl
    · simp only
      rw [runMax_append, ← hmax]
      simp only
      have hcast : (((d + 1 : Nat) : Int)) = (d : Int) + 1 := by push_cast; ring
      rw [hcast]
      by_cases hc : (d : Int) + 1 > st.max_distance
      · rw [if_pos hc, if_pos hc, if_pos hc]
      · rw [if_neg hc, if_neg hc, if_neg hc]

theorem bfsVisit_invariant (dsha : Bytes → Hash) (s : Store)
    (hnosent : ∀ (i : Nat) (bb : Block), s.blocks[i]? = some bb →
      bb.get_curr_hash_little dsha ≠ sourceHash)
    (curr : Hash) (d : Nat) :
    ∀ (ids : List Nat) (st : BfsState),
      (∀ id ∈ ids, ∃ b : Block, s.blocks[id]? = some b ∧
        b.previous_block_header_hash = curr) →
      dGet st.distances curr = some d →
      BfsInv dsha s st →
      BfsInv dsha s (bfsVisit dsha s.blocks d st ids) ∧
      BfsExt st (bfsVisit dsha s.blocks d st ids) ∧
      ∀ id ∈ ids, ∀ b : Block, s.blocks[id]? = some b →
        (dGet (bfsVisit dsha s.blocks d st ids).distances
          (b.get_curr_hash_little dsha)).isSome := by
  intro ids
  induction ids with
  | nil =>
      intro st _ _ hinv
      refine ⟨hinv, BfsExt_refl st, ?_⟩
      intro id hid
      simp at hid
  | cons id ids ih =>
      intro st hchild hcur hinv
      obtain ⟨b, hb, hprev⟩ := hchild id (by simp)
      rw [bfsVisit]
      rw [hb]
      rcases hfresh : dGet st.distances (b.get_curr_hash_little dsha)
        with _ | d0
      · simp only [hfresh]
        set st' : BfsState :=
          { queue := st.queue ++ [b.get_curr_hash_little dsha]
            distances := dSet st.distances (b.get_curr_hash_little dsha) (d + 1)
            heights := dSet st.heights id d
            max_distance :=
              if (d + 1 : Int) > st.max_distance then ((d : Int) + 1)
              else st.max_distance
            max_hash :=
              if (d + 1 : Int) > st.max_distance then b.get_curr_hash_little dsha
              else st.max_hash } with hst'
        obtain ⟨hinv', hext'⟩ :=
          bfsStep_invariant hnosent hb hprev hcur hfresh hinv st' hst'
        have hcur' : dGet st'.distances curr = some d := hext'.1 curr d hcur
        obtain ⟨hinv2, hext2, hdisc⟩ := ih st'
          (fun i hi => hchild i (List.mem_cons_of_mem _ hi)) hcur' hinv'
        refine ⟨hinv2, BfsExt_trans hext' hext2, ?_⟩
        intro i hi bb hbb
        rcases List.mem_cons.mp hi with rfl | hi
        · rw [hb] at hbb
          obtain rfl := Option.some.inj hbb
          have hbind : dGet st'.distances (b.get_curr_hash_little dsha) =
              some (d + 1) := dGet_dSet_self _ _ _
          have := hext2.1 _ _ hbind
          rw [this]
          rfl
        · exact hdisc i hi bb hbb
      · simp only [hfresh]
        obtain ⟨hinv2, hext2, hdisc⟩ := ih st
          (fun i hi => hchild i (List.mem_cons_of_mem _ hi)) hcur hinv
        refine ⟨hinv2, hext2, ?_⟩
        intro i hi bb hbb
        rcases List.mem_cons.mp hi with rfl | hi
        · rw [hb] at hbb
          obtain rfl := Option.some.inj hbb
          have := hext2.1 _ _ hfresh
          rw [this]
          rfl
        · exact hdisc i hi bb hbb

theorem bfsLoop_invariant (dsha : Bytes → Hash) (s : Store)
    (hwf : StoreWF dsha s)
    (hnosent : ∀ (i : Nat) (bb : Block), s.blocks[i]? = some bb →
      bb.get_curr_hash_little dsha ≠ sourceHash) :
    ∀ (fuel : Nat) (st st' : BfsState),
      bfsLoop dsha s fuel st = some st' →
      BfsInv dsha s st →
      BfsInv dsha s st' ∧ BfsExt st st' := by
  intro fuel
  induction fuel with
  | zero =>
      intro st st' h hinv
      rw [bfsLoop] at h
      rcases hq : st.queue with _ | ⟨curr, rest⟩
      · rw [hq] at h
        simp only [Option.some.injEq] at h
        subst h
        exact ⟨hinv, BfsExt_refl st⟩
      · rw [hq] at h
        cases h
  | succ fuel ih =>
      intro st st' h hinv
      rw [bfsLoop] at h
      rcases hq : st.queue with _ | ⟨curr, rest⟩
      · rw [hq] at h
        simp only [Option.some.injEq] at h
        subst h
        exact ⟨hinv, BfsExt_refl st⟩
      · rw [hq] at h
        simp only at h
        rcases hc : dGet s.prev_hash_to_blocks curr with _ | ids
        · rw [hc] at h
          obtain ⟨hinv2, hext2⟩ := ih _ _ h (BfsInv_set_queue rest hinv)
          exact ⟨hinv2, hext2⟩
        · rw [hc] at h
          rcases hd : dGet st.distances curr with _ | d
          · rw [hd] at h
            cases h
          · rw [hd] at h
            have hchild : ∀ id ∈ ids, ∃ b : Block, s.blocks[id]? = some b ∧
                b.previous_block_header_hash = curr :=
              (hwf.children curr ids hc).2
            obtain ⟨hinv1, hext1, _⟩ := bfsVisit_invariant dsha s hnosent
              curr d ids {st with queue := rest} hchild hd
              (BfsInv_set_queue rest hinv)
            obtain ⟨hinv2, hext2⟩ := ih _ _ h hinv1
            exact ⟨hinv2, BfsExt_trans hext1 hext2⟩

theorem bfsInv_init (dsha : Bytes → Hash) (s : Store) :
    BfsInv dsha s bfsState0 := by
  constructor
  · simp [bfsState0]
  · simp [bfsState0, dGet]
  · intro h d hd _
    by_cases hh : sourceHash = h
    · exact hh.symm
    · simp [bfsState0, dGet, hh] at hd
  · intro h d hd h1le
    by_cases hh : sourceHash = h
    · rw [← hh] at hd
      simp [bfsState0, dGet] at hd
      omega
    · simp [bfsState0, dGet, hh] at hd
  · intro i hg hi
    simp only [bfsState0, dGet] at hi
    cases hi
  · exact ⟨[], rfl, rfl⟩

theorem bfs_genesis_discovered (dsha : Bytes → Hash) (s : Store)
    (hwf : StoreWF dsha s)
    (hnosent : ∀ (i : Nat) (bb : Block), s.blocks[i]? = some bb →
      bb.get_curr_hash_little dsha ≠ sourceHash)
    (fuel : Nat) (st' : BfsState)
    (hrun : bfsLoop dsha s fuel bfsState0 = some st')
    (gids : List Nat)
    (hgen : dGet s.prev_hash_to_blocks sourceHash = some gids) :
    ∀ id ∈ gids, ∀ b : Block, s.blocks[id]? = some b →
      (dGet st'.distances (b.get_curr_hash_little dsha)).isSome := by
  intro id hid b hb
  match fuel with
  | 0 =>
      rw [bfsLoop] at hrun
      simp [bfsState0] at hrun
  | fuel + 1 =>
      rw [bfsLoop] at hrun
      have hq : bfsState0.queue = [sourceHash] := rfl
      rw [hq] at hrun
      simp only at hrun
      rw [hgen] at hrun
      have hd0 : dGet bfsState0.distances sourceHash = some 0 := by
        simp [bfsState0, dGet]
      rw [hd0] at hrun
      have hchild : ∀ i ∈ gids, ∃ bb : Block, s.blocks[i]? = some bb ∧
          bb.previous_block_header_hash = sourceHash :=
        (hwf.children _ _ hgen).2
      have hd0' : dGet ({bfsState0 with queue := ([] : List Hash)}).distances
          sourceHash = some 0 := hd0
      obtain ⟨hinv1, hext1, hdisc⟩ := bfsVisit_invariant dsha s hnosent
        sourceHash 0 gids {bfsState0 with queue := []} hchild hd0'
        (BfsInv_set_queue [] (bfsInv_init dsha s))
      obtain ⟨hinv2, hext2⟩ := bfsLoop_invariant dsha s hwf hnosent
        fuel _ _ hrun hinv1
      have hsome := hdisc id hid b hb
      rcases hbind : dGet (bfsVisit dsha s.blocks 0
          {bfsState0 with queue := []} gids).distances
          (b.get_curr_hash_little dsha) with _ | dd
      · rw [hbind] at hsome
        cases hsome
      · rw [hext2.1 _ _ hbind]
        rfl

theorem findFirstBlock_unique (dsha : Bytes → Hash) (blocks : List Block)
    (h : Hash) (hnd : (blocks.map (Block.get_curr_hash_little dsha)).Nodup) :
    ∀ (ids : List Nat) (id : Nat) (b : Block), id ∈ ids →
      blocks[id]? = some b → b.get_curr_hash_little dsha = h →
      findFirstBlock dsha blocks h ids = some id := by
  intro ids
  induction ids with
  | nil =>
      intro id b hid
      simp at hid
  | cons i rest ih =>
      intro id b hid hb hbh
      rw [findFirstBlock]
      rcases hbi : blocks[i]? with _ | bi
      · simp only [hbi]
        have hne : i ≠ id := by
          intro he
          rw [he, hb] at hbi
          cases hbi
        have hid' : id ∈ rest := by
          rcases List.mem_cons.mp hid with he | hmem
          · exact absurd he.symm hne
          · exact hmem
        exact ih id b hid' hb hbh
      · simp only [hbi]
        by_cases hh : bi.get_curr_hash_little dsha = h
        · rw [if_pos hh]
          have := blocks_hash_inj hnd hbi hb (by rw [hh, hbh])
          rw [this.1]
        · rw [if_neg hh]
          have hne : i ≠ id := by
            intro he
            rw [he, hb] at hbi
            obtain rfl := Option.some.inj hbi
            exact hh hbh
          have hid' : id ∈ rest := by
            rcases List.mem_cons.mp hid with he | hmem
            · exact absurd he.symm hne
            · exact hmem
          exact ih id b hid' hb hbh

theorem ingest_mem_of_lookup {dsha : Bytes → Hash} {bs : List Block}
    {id : Nat} {b : Block} (hb : (ingest dsha bs).blocks[id]? = some b) :
    b ∈ bs := by
  rw [ingest_blocks] at hb
  rcases List.getElem?_eq_some.mp hb with ⟨hlt, hget⟩
  rw [← hget]
  exact List.getElem_mem hlt

theorem ingest_map_nodup {dsha : Bytes → Hash} {bs : List Block}
    (hnd : (bs.map (Block.get_curr_hash_little dsha)).Nodup) :
    ((ingest dsha bs).blocks.map (Block.get_curr_hash_little dsha)).Nodup := by
  rw [ingest_blocks]
  exact hnd

/-- C3: after the resolver's BFS on an ingested block set with pairwise
distinct header hashes (none the sentinel), every stored child of the
all-zero sentinel is assigned height 0, and every other block assigned a
height has height exactly one more than the height assigned to the block
whose header hash is its parent hash — the parent on the path the BFS
discovered. -/
theorem bfs_height_invariant (dsha : Bytes → Hash) (bs : List Block)
    (fuel : Nat) (longest : Hash) (height : Int) (st : BfsState)
    (hnd : (bs.map (Block.get_curr_hash_little dsha)).Nodup)
    (hnosent : ∀ b ∈ bs, b.get_curr_hash_little dsha ≠ sourceHash)
    (hrun : compute_distances_bfs dsha (ingest dsha bs) fuel =
      some (longest, height, st)) :
    (∀ (id : Nat) (b : Block), (ingest dsha bs).blocks[id]? = some b →
      b.previous_block_header_hash = sourceHash →
      dGet st.heights id = some 0) ∧
    (∀ (id : Nat) (b : Block) (hg : Nat),
      (ingest dsha bs).blocks[id]? = some b →
      dGet st.heights id = some hg →
      b.previous_block_header_hash ≠ sourceHash →
      ∃ (pid : Nat) (pb : Block) (phg : Nat),
        (ingest dsha bs).blocks[pid]? = some pb ∧
        pb.get_curr_hash_little dsha = b.previous_block_header_hash ∧
        dGet st.heights pid = some phg ∧ hg = phg + 1) := by
  have hwf := storeWF_ingest dsha bs
  have hnosent' : ∀ (i : Nat) (bb : Block),
      (ingest dsha bs).blocks[i]? = some bb →
      bb.get_curr_hash_little dsha ≠ sourceHash :=
    fun i bb hb => hnosent bb (ingest_mem_of_lookup hb)
  have hnd' := @ingest_map_nodup dsha _ hnd
  rw [compute_distances_bfs] at hrun
  rcases hloop : bfsLoop dsha (ingest dsha bs) fuel bfsState0 with _ | st₀
  · rw [hloop] at hrun
    cases hrun
  · rw [hloop] at hrun
    simp only [Option.map_some', Option.some.injEq, Prod.mk.injEq] at hrun
    obtain ⟨hlg, hht, hst⟩ := hrun
    subst hst
    obtain ⟨hinv, _⟩ := bfsLoop_invariant dsha (ingest dsha bs) hwf hnosent'
      fuel _ _ hloop (bfsInv_init dsha (ingest dsha bs))
    constructor
    · intro id b hb hpre
      obtain ⟨gids, hgids, hmem⟩ := hwf.registered id b hb
      rw [hpre] at hgids
      have hdisc := bfs_genesis_discovered dsha (ingest dsha bs) hwf hnosent'
        fuel st₀ hloop gids hgids id hmem b hb
      rcases hdd : dGet st₀.distances (b.get_curr_hash_little dsha)
        with _ | dd
      · rw [hdd] at hdisc
        cases hdisc
      · have hdd1 : 1 ≤ dd := by
          rcases Nat.eq_zero_or_pos dd with h0 | hpos
          · exact absurd (hinv.zero_only _ _ hdd h0) (hnosent' id b hb)
          · exact hpos
        obtain ⟨id', b', hb', hch', hpdist', hpheight'⟩ :=
          hinv.parents _ _ hdd hdd1
        obtain ⟨hid, hbb⟩ := blocks_hash_inj hnd' hb' hb hch'
        subst hid
        subst hbb
        rw [hpre] at hpdist'
        rw [hinv.src_zero] at hpdist'
        have : dd - 1 = 0 := (Option.some.inj hpdist').symm
        rw [this] at hpheight'
        exact hpheight'
    · intro id b hg hb hhg hpre
      obtain ⟨b'', hb'', hdist''⟩ := hinv.heights_dom id hg hhg
      rw [hb] at hb''
      obtain rfl := Option.some.inj hb''
      obtain ⟨id1, b1, hb1, hch1, hpdist1, _⟩ :=
        hinv.parents _ _ hdist'' (by omega)
      obtain ⟨hid1, hbb1⟩ := blocks_hash_inj hnd' hb1 hb hch1
      rw [hbb1] at hpdist1
      have hpdist : dGet st₀.distances b.previous_block_header_hash =
          some hg := by
        simpa using hpdist1
      have hg1 : 1 ≤ hg := by
        rcases Nat.eq_zero_or_pos hg with h0 | hpos
        · exact absurd (hinv.zero_only _ _ hpdist h0) hpre
        · exact hpos
      obtain ⟨pid, pb, hpb, hpch, _, hpheight⟩ :=
        hinv.parents _ _ hpdist hg1
      exact ⟨pid, pb, hg - 1, hpb, hpch, hpheight, by omega⟩

/-- Witness for C3 on the concrete fork `A→B`, `A→B'`: the genesis A gets
height 0 and B's height 1 is one more than its parent's. -/
theorem bfs_height_invariant_witness :
    ∃ (longest : Hash) (height : Int) (st : BfsState),
      compute_distances_bfs dId (ingest dId wFork) 10 = some (longest, height, st) ∧
      dGet st.heights 0 = some 0 ∧
      ∃ (pid : Nat) (pb : Block) (phg : Nat),
        (ingest dId wFork).blocks[pid]? = some pb ∧
        pb.get_curr_hash_little dId = wBlockB.previous_block_header_hash ∧
        dGet st.heights pid = some phg ∧ 1 = phg + 1 := by
  rcases hr : compute_distances_bfs dId (ingest dId wFork) 10 with _ | r
  · exact absurd hr (by decide)
  · obtain ⟨longest, height, st⟩ := r
    have h1 : (compute_distances_bfs dId (ingest dId wFork) 10).map
        (fun r => dGet r.2.2.heights 1) = some (some 1) := by decide
    rw [hr] at h1
    simp only [Option.map_some', Option.some.injEq] at h1
    have hthm := bfs_height_invariant dId wFork 10 longest height st
      (by decide) (by decide) hr
    refine ⟨longest, height, st, rfl, ?_, ?_⟩
    · exact hthm.1 0 wBlockA (by decide) (by decide)
    · exact hthm.2 1 wBlockB 1 (by decide) h1 (by decide)

/-- C4: the resolver's chosen tip is the first hash discovered by the BFS
whose distance attains the maximum: over the added entries of the
distances map in discovery order, `find?` at the maximal distance returns
exactly `(max_hash, max_distance)`; `compute_distances_bfs` returns
`(max_hash, max_distance - 1)`.  With several tips of equal maximal
depth the first one discovered therefore wins, and the choice is a
function of the ingested sequence alone. -/
theorem bfs_tie_break (dsha : Bytes → Hash) (s : Store) (fuel : Nat)
    (longest : Hash) (height : Int) (st : BfsState)
    (hwf : StoreWF dsha s)
    (hnosent : ∀ (i : Nat) (bb : Block), s.blocks[i]? = some bb →
      bb.get_curr_hash_little dsha ≠ sourceHash)
    (hrun : compute_distances_bfs dsha s fuel = some (longest, height, st))
    (hpos : -1 < st.max_distance) :
    longest = st.max_hash ∧ height = st.max_distance - 1 ∧
    ∃ tl, st.distances = (sourceHash, 0) :: tl ∧
      ∃ d : Nat, (d : Int) = st.max_distance ∧
        tl.find? (fun x => decide (d ≤ x.2)) = some (st.max_hash, d) ∧
        ∀ x ∈ tl, x.2 ≤ d := by
  rw [compute_distances_bfs] at hrun
  rcases hloop : bfsLoop dsha s fuel bfsState0 with _ | st₀
  · rw [hloop] at hrun
    cases hrun
  · rw [hloop] at hrun
    simp only [Option.map_some', Option.some.injEq, Prod.mk.injEq] at hrun
    obtain ⟨hlg, hht, hst⟩ := hrun
    subst hst
    obtain ⟨hinv, _⟩ := bfsLoop_invariant dsha s hwf hnosent
      fuel _ _ hloop (bfsInv_init dsha s)
    obtain ⟨tl, htl, hmax⟩ := hinv.shape
    refine ⟨hlg.symm, hht.symm, tl, htl, ?_⟩
    have hlt : ((-1 : Int), ([] : Hash)).1 < (runMax tl (-1, [])).1 := by
      rw [← hmax]
      exact hpos
    obtain ⟨d, hd, hfind, hbound⟩ := runMax_first tl _ hlt
    refine ⟨d, ?_, ?_, hbound⟩
    · rw [hd, ← hmax]
    · rw [hfind, ← hmax]

/-- Witness for C4 on the equal-depth fork `A→B`, `A→B'`: B and B' both
have depth 2; the tip is the first discovered entry of depth 2. -/
theorem bfs_tie_break_witness :
    ∃ (longest : Hash) (height : Int) (st : BfsState),
      compute_distances_bfs dId (ingest dId wFork) 10 =
        some (longest, height, st) ∧
      (longest = st.max_hash ∧ height = st.max_distance - 1 ∧
      ∃ tl, st.distances = (sourceHash, 0) :: tl ∧
        ∃ d : Nat, (d : Int) = st.max_distance ∧
          tl.find? (fun x => decide (d ≤ x.2)) = some (st.max_hash, d) ∧
          ∀ x ∈ tl, x.2 ≤ d) := by
  rcases hr : compute_distances_bfs dId (ingest dId wFork) 10 with _ | r
  · exact absurd hr (by decide)
  · obtain ⟨longest, height, st⟩ := r
    have hp : (compute_distances_bfs dId (ingest dId wFork) 10).map
        (fun r => decide (-1 < r.2.2.max_distance)) = some true := by decide
    rw [hr] at hp
    simp only [Option.map_some', Option.some.injEq,
      decide_eq_true_eq] at hp
    have hns : ∀ (i : Nat) (bb : Block),
        (ingest dId wFork).blocks[i]? = some bb →
        bb.get_curr_hash_little dId ≠ sourceHash := by
      intro i bb hb
      have hall : ∀ b ∈ wFork, Block.get_curr_hash_little dId b ≠ sourceHash := by
        decide
      exact hall bb (ingest_mem_of_lookup hb)
    exact ⟨longest, height, st, rfl,
      bfs_tie_break dId (ingest dId wFork) 10 longest height st
        (storeWF_ingest dId wFork) hns hr hp⟩

theorem chainWalk_succ (s : Store) (fuel : Nat) (h : Hash) :
    chainWalk s (fuel + 1) h =
      if h = sourceHash then some []
      else match dGet s.curr_hash_to_prev_hash h with
           | none => none
           | some p => (chainWalk s fuel p).map (fun t => h :: t) := rfl

theorem chainWalk_source (s : Store) (fuel : Nat) :
    chainWalk s (fuel + 1) sourceHash = some [] := by
  rw [chainWalk_succ, if_pos rfl]

/-- Master lemma for the backward walk: from a hash at BFS distance
`d ≥ 1`, the claim's `parent_of` walk reaches the sentinel in exactly `d`
visited blocks, and `setup`'s flag walk run from the same hash marks
every visited block except the one whose parent is the sentinel. -/
theorem walk_master (dsha : Bytes → Hash) (bs : List Block) (st : BfsState)
    (hnd : (bs.map (Block.get_curr_hash_little dsha)).Nodup)
    (hinv : BfsInv dsha (ingest dsha bs) st) :
    ∀ (d : Nat), ∀ (h prev : Hash) (fuel : Nat) (flags0 out : List Nat),
      dGet st.distances h = some d → 1 ≤ d →
      dGet (ingest dsha bs).curr_hash_to_prev_hash h = some prev →
      walkLoop dsha (ingest dsha bs) fuel h prev flags0 = some out →
      ∃ visited, chainWalk (ingest dsha bs) (d + 1) h = some visited ∧
        visited.length = d ∧
        (∀ y ∈ flags0, y ∈ out) ∧
        ∀ x ∈ visited, ∃ (id : Nat) (b : Block),
          (ingest dsha bs).blocks[id]? = some b ∧
          b.get_curr_hash_little dsha = x ∧
          (id ∈ out ∨ b.previous_block_header_hash = sourceHash) := by
  have hwf := storeWF_ingest dsha bs
  have hnd' := @ingest_map_nodup dsha _ hnd
  intro d
  induction d using Nat.strong_induction_on with
  | _ d ih =>
      intro h prev fuel flags0 out hd h1le hpar hwalk
      obtain ⟨e, rfl⟩ : ∃ e, d = e + 1 := ⟨d - 1, by omega⟩
      obtain ⟨id1, b1, hb1, hch1, hpdist1, hpheight1⟩ :=
        hinv.parents h (e + 1) hd (by omega)
      simp only [Nat.add_sub_cancel] at hpdist1 hpheight1
      obtain ⟨id0, b0, hb0, hch0, hprev0⟩ := hwf.parent_map h prev hpar
      obtain ⟨hid01, hbb01⟩ :=
        blocks_hash_inj hnd' hb0 hb1 (by rw [hch0, hch1])
      rw [← hbb01] at hpdist1
      have hpdist : dGet st.distances prev = some e := by
        rw [← hprev0]
        exact hpdist1
      have hne_src : h ≠ sourceHash := by
        intro he
        rw [he, hinv.src_zero] at hd
        have := Option.some.inj hd
        omega
      rcases Nat.eq_zero_or_pos e with he0 | hepos
      · subst he0
        have hprev_src : prev = sourceHash := hinv.zero_only prev 0 hpdist rfl
        match fuel with
        | 0 => cases hwalk
        | fuel + 1 =>
            rw [walkLoop, if_pos hprev_src] at hwalk
            obtain rfl := Option.some.inj hwalk
            refine ⟨[h], ?_, rfl, fun y hy => hy, ?_⟩
            · rw [chainWalk_succ, if_neg hne_src, hpar]
              show (chainWalk (ingest dsha bs) (0 + 1) prev).map
                (fun t => h :: t) = some [h]
              rw [hprev_src, chainWalk_source]
              rfl
            · intro x hx
              rcases List.mem_cons.mp hx with rfl | hx
              · refine ⟨id0, b0, hb0, hch0, Or.inr ?_⟩
                rw [hprev0]
                exact hprev_src
              · simp at hx
      · have hprev_ne : prev ≠ sourceHash := by
          intro he
          rw [he, hinv.src_zero] at hpdist
          have := Option.some.inj hpdist
          omega
        match fuel with
        | 0 => cases hwalk
        | fuel + 1 =>
            rw [walkLoop, if_neg hprev_ne] at hwalk
            obtain ⟨ids1, hids1, hmem1⟩ := hwf.registered id0 b0 hb0
            rw [hprev0] at hids1
            have hfind : findFirstBlock dsha (ingest dsha bs).blocks h ids1 =
                some id0 :=
              findFirstBlock_unique dsha _ h hnd' ids1 id0 b0 hmem1 hb0 hch0
            obtain ⟨pid, pb, hpb, hpch, hppdist, _⟩ :=
              hinv.parents prev e hpdist (by omega)
            have hparprev : dGet (ingest dsha bs).curr_hash_to_prev_hash
                prev = some pb.previous_block_header_hash := by
              rw [← hpch]
              exact ingest_curr_map_nodup dsha bs hnd pid pb hpb
            simp only [hids1, hparprev, hfind] at hwalk
            obtain ⟨visited', hcw', hlen', hsub', hprop'⟩ :=
              ih e (by omega) prev pb.previous_block_header_hash fuel
                (flags0 ++ [id0]) out hpdist (by omega) hparprev hwalk
            refine ⟨h :: visited', ?_, ?_, ?_, ?_⟩
            · rw [chainWalk_succ, if_neg hne_src, hpar]
              show (chainWalk (ingest dsha bs) (e + 1) prev).map
                (fun t => h :: t) = some (h :: visited')
              rw [hcw']
              rfl
            · simp [hlen']
            · intro y hy
              exact hsub' y (List.mem_append_left _ hy)
            · intro x hx
              rcases List.mem_cons.mp hx with rfl | hx
              · refine ⟨id0, b0, hb0, hch0, Or.inl ?_⟩
                exact hsub' id0 (List.mem_append_right _ (by simp))
              · exact hprop' x hx

/-- C2 (amended): after `setup` completes on an ingested block set with
pairwise distinct non-sentinel header hashes and a genesis block (the
sentinel has at least one child), walking from `latest_block_little`
along `curr_hash_to_prev_hash` reaches the all-zero sentinel and the
number of blocks visited is `blockchain_height + 1`, whatever the number
of sentinel children; when the sentinel has exactly one child, every
block visited on that walk additionally carries the main-chain flag.
(With several sentinel children the flag part fails — see the
counterexample.) -/
theorem setup_main_chain_connectivity (dsha : Bytes → Hash) (bs : List Block)
    (fuel : Nat) (r : SetupResult) (gid : Nat) (grest : List Nat)
    (hnd : (bs.map (Block.get_curr_hash_little dsha)).Nodup)
    (hnosent : ∀ b ∈ bs, b.get_curr_hash_little dsha ≠ sourceHash)
    (hgen : dGet (ingest dsha bs).prev_hash_to_blocks sourceHash =
      some (gid :: grest))
    (hrun : setup dsha bs fuel = some r) :
    r.store = ingest dsha bs ∧
    ∃ visited, chainWalk (ingest dsha bs) (visited.length + 1)
        r.latest_block_little = some visited ∧
      (visited.length : Int) = r.blockchain_height + 1 ∧
      (grest = [] → ∀ x ∈ visited, ∃ (id : Nat) (b : Block),
        (ingest dsha bs).blocks[id]? = some b ∧
        b.get_curr_hash_little dsha = x ∧ id ∈ r.main_flags) := by
  have hwf := storeWF_ingest dsha bs
  have hnd' := @ingest_map_nodup dsha _ hnd
  have hnosent' : ∀ (i : Nat) (bb : Block),
      (ingest dsha bs).blocks[i]? = some bb →
      bb.get_curr_hash_little dsha ≠ sourceHash :=
    fun i bb hb => hnosent bb (ingest_mem_of_lookup hb)
  rw [setup] at hrun
  rcases hc : compute_distances_bfs dsha (ingest dsha bs) fuel
    with _ | ⟨longest, lch, st⟩
  · simp only [hc] at hrun
    cases hrun
  · simp only [hc] at hrun
    rcases hpm : dGet (ingest dsha bs).curr_hash_to_prev_hash longest
      with _ | prev0
    · simp only [hpm] at hrun
      cases hrun
    · simp only [hpm] at hrun
      rcases hwk : walkLoop dsha (ingest dsha bs) fuel longest prev0 []
        with _ | flags
      · simp only [hwk] at hrun
        cases hrun
      · simp only [hwk] at hrun
        simp only [hgen] at hrun
        obtain rfl := Option.some.inj hrun
        rw [compute_distances_bfs] at hc
        rcases hloop : bfsLoop dsha (ingest dsha bs) fuel bfsState0
          with _ | st₀
        · rw [hloop] at hc
          cases hc
        · rw [hloop] at hc
          simp only [Option.map_some', Option.some.injEq,
            Prod.mk.injEq] at hc
          obtain ⟨hlg, hlch, hst⟩ := hc
          subst hst
          obtain ⟨hinv, _⟩ := bfsLoop_invariant dsha (ingest dsha bs) hwf
            hnosent' fuel _ _ hloop (bfsInv_init dsha (ingest dsha bs))
          have hmemg : gid ∈ gid :: grest := by simp
          obtain ⟨gb, hgb, hgprev⟩ := (hwf.children _ _ hgen).2 gid hmemg
          have hdiscg := bfs_genesis_discovered dsha (ingest dsha bs) hwf
            hnosent' fuel st₀ hloop (gid :: grest) hgen gid hmemg gb hgb
          rcases hdg : dGet st₀.distances (gb.get_curr_hash_little dsha)
            with _ | dg
          · rw [hdg] at hdiscg
            cases hdiscg
          · have hdg1 : 1 ≤ dg := by
              rcases Nat.eq_zero_or_pos dg with h0 | hpos
              · exact absurd (hinv.zero_only _ _ hdg h0)
                  (hnosent' gid gb hgb)
              · exact hpos
            obtain ⟨tl, htl, hmax⟩ := hinv.shape
            have hm1 : st₀.max_distance = (runMax tl (-1, [])).1 :=
              congrArg Prod.fst hmax
            have hm2 : st₀.max_hash = (runMax tl (-1, [])).2 :=
              congrArg Prod.snd hmax
            have hmem_tl : (gb.get_curr_hash_little dsha, dg) ∈ tl := by
              have hmem := dGet_mem hdg
              rw [htl] at hmem
              rcases List.mem_cons.mp hmem with hhead | htail
              · exfalso
                have : gb.get_curr_hash_little dsha = sourceHash :=
                  congrArg Prod.fst hhead
                exact hnosent' gid gb hgb this
              · exact htail
            have hposle : (dg : Int) ≤ st₀.max_distance := by
              have := (runMax_fst_ge tl (-1, [])).2 _ hmem_tl
              rw [hm1]
              exact this
            have hlt : ((-1 : Int), ([] : Hash)).1 <
                (runMax tl (-1, [])).1 := by
              simp only
              rw [← hm1]
              omega
            obtain ⟨dmax, hdmax, hfind, hbound⟩ := runMax_first tl _ hlt
            have hfind' : tl.find? (fun x => decide (dmax ≤ x.2)) =
                some (st₀.max_hash, dmax) := by
              rw [hfind, ← hm2]
            have hmem_max : (st₀.max_hash, dmax) ∈ tl :=
              List.mem_of_find?_eq_some hfind'
            have hget_max : dGet st₀.distances st₀.max_hash = some dmax := by
              apply mem_dGet hinv.keys_nodup
              rw [htl]
              exact List.mem_cons_of_mem _ hmem_max
            have hdmax1 : 1 ≤ dmax := by
              rw [← hm1] at hdmax
              omega
            subst hlg
            obtain ⟨visited, hcw, hlenv, _, hprop⟩ :=
              walk_master dsha bs st₀ hnd hinv dmax st₀.max_hash prev0 fuel
                [] flags hget_max hdmax1 hpm hwk
            refine ⟨rfl, visited, ?_, ?_, ?_⟩
            · rw [hlenv]
              exact hcw
            · show (visited.length : Int) = lch + 1
              rw [hlenv, ← hlch, ← hm1] at *
              omega
            · intro hrest x hx
              subst hrest
              obtain ⟨id, b, hb, hx1, hor⟩ := hprop x hx
              refine ⟨id, b, hb, hx1, ?_⟩
              rcases hor with hid | hsrc
              · exact List.mem_append_left _ hid
              · obtain ⟨ids', hids', hmem'⟩ := hwf.registered id b hb
                rw [hsrc, hgen] at hids'
                obtain rfl := Option.some.inj hids'
                simp at hmem'
                rw [hmem']
                exact List.mem_append_right _ (by simp)

/-- Witness for the amended C2 on the two-block chain `A→B` (the
sentinel has the unique child A, so the flag guard `[] = []` fires). -/
theorem setup_main_chain_connectivity_witness :
    ∃ r : SetupResult, setup dId [wBlockA, wBlockB] 10 = some r ∧
      (r.store = ingest dId [wBlockA, wBlockB] ∧
      ∃ visited, chainWalk (ingest dId [wBlockA, wBlockB])
          (visited.length + 1) r.latest_block_little = some visited ∧
        (visited.length : Int) = r.blockchain_height + 1 ∧
        (([] : List Nat) = [] → ∀ x ∈ visited, ∃ (id : Nat) (b : Block),
          (ingest dId [wBlockA, wBlockB]).blocks[id]? = some b ∧
          b.get_curr_hash_little dId = x ∧ id ∈ r.main_flags)) := by
  rcases hr : setup dId [wBlockA, wBlockB] 10 with _ | r
  · exact absurd hr (by decide)
  · have hns : ∀ b ∈ [wBlockA, wBlockB],
        Block.get_curr_hash_little dId b ≠ sourceHash := by decide
    exact ⟨r, rfl, setup_main_chain_connectivity dId [wBlockA, wBlockB] 10 r 0
      [] (by decide) hns (by decide) hr⟩

/-- C2 counterexample: the sentinel has two children (A and G2) and the
longest chain runs through the second one (G2→B).  `setup` flags the tip
B on its walk and then flags `prev_hash_to_blocks[sentinel][0]`, i.e. A —
but the walk from the tip visits G2's hash, and G2 (ingestion index 1)
never receives the main-chain flag.  So a block visited by the
`parent_of` walk from `latest_tip` has `main_chain = false`, refuting the
claim for sentinel hashes with more than one child. -/
theorem setup_offchain_block_on_walk :
    (setup dId cChain 10).map (fun r =>
      (r.latest_block_little,
        chainWalk r.store 10 r.latest_block_little, r.main_flags)) =
      some (3 :: 2 :: List.replicate 32 0,
        some [3 :: 2 :: List.replicate 32 0, 2 :: List.replicate 32 0],
        [2, 0]) ∧
    (ingest dId cChain).blocks[1]? = some cG2 ∧
    cG2.get_curr_hash_little dId = 2 :: List.replicate 32 0 ∧
    (cChain.map (Block.get_curr_hash_little dId)).Nodup ∧
    ¬ (1 ∈ ([2, 0] : List Nat)) := by
  exact ⟨by decide, by decide, by decide, by decide, by decide⟩

/-! ### Accessor lemmas: C7, C8 -/

theorem findFirstBlock_isSome (dsha : Bytes → Hash) (blocks : List Block)
    (curr : Hash) :
    ∀ (ids : List Nat) (id : Nat) (b : Block), id ∈ ids →
      blocks[id]? = some b → b.get_curr_hash_little dsha = curr →
      (findFirstBlock dsha blocks curr ids).isSome := by
  intro ids
  induction ids with
  | nil =>
      intro id b hid
      simp at hid
  | cons i rest ih =>
      intro id b hid hb hbh
      rw [findFirstBlock]
      rcases hbi : blocks[i]? with _ | bi
      · simp only [hbi]
        have hne : i ≠ id := by
          intro he
          rw [he, hb] at hbi
          cases hbi
        rcases List.mem_cons.mp hid with he | hmem
        · exact absurd he.symm hne
        · exact ih id b hmem hb hbh
      · simp only [hbi]
        by_cases hh : bi.get_curr_hash_little dsha = curr
        · rw [if_pos hh]
          rfl
        · rw [if_neg hh]
          rcases List.mem_cons.mp hid with he | hmem
          · exfalso
            subst he
            rw [hb] at hbi
            obtain rfl := Option.some.inj hbi
            exact hh hbh
          · exact ih id b hmem hb hbh

theorem findFirstBlock_sound (dsha : Bytes → Hash) (blocks : List Block)
    (curr : Hash) :
    ∀ (ids : List Nat) (id : Nat),
      findFirstBlock dsha blocks curr ids = some id →
      ∃ b : Block, blocks[id]? = some b ∧
        b.get_curr_hash_little dsha = curr := by
  intro ids
  induction ids with
  | nil =>
      intro id h
      cases h
  | cons i rest ih =>
      intro id h
      rw [findFirstBlock] at h
      rcases hbi : blocks[i]? with _ | bi
      · simp only [hbi] at h
        exact ih id h
      · simp only [hbi] at h
        by_cases hh : bi.get_curr_hash_little dsha = curr
        · rw [if_pos hh] at h
          obtain rfl := Option.some.inj h
          exact ⟨bi, hbi, hh⟩
        · rw [if_neg hh] at h
          exact ih id h

theorem txScanBlocks_isSome (dsha : Bytes → Hash) (blocks : List Block)
    (tgt : Hash) :
    ∀ (ids : List Nat) (id : Nat) (b : Block) (tx : Transaction),
      id ∈ ids → blocks[id]? = some b → tx ∈ b.txs.take b.tx_count →
      tx.hash = tgt → (txScanBlocks dsha blocks tgt ids).isSome := by
  intro ids
  induction ids with
  | nil =>
      intro id b tx hid
      simp at hid
  | cons i rest ih =>
      intro id b tx hid hb htx hh
      rw [txScanBlocks]
      rcases hbi : blocks[i]? with _ | bi
      · simp only [hbi]
        have hne : i ≠ id := by
          intro he
          rw [he, hb] at hbi
          cases hbi
        rcases List.mem_cons.mp hid with he | hmem
        · exact absurd he.symm hne
        · exact ih id b tx hmem hb htx hh
      · simp only [hbi]
        rcases hf : (bi.txs.take bi.tx_count).find?
            (fun t => decide (t.hash = tgt)) with _ | t
        · simp only [hf]
          rcases List.mem_cons.mp hid with he | hmem
          · exfalso
            subst he
            rw [hb] at hbi
            obtain rfl := Option.some.inj hbi
            have := List.find?_eq_none.mp hf tx htx
            simp [hh] at this
          · exact ih id b tx hmem hb htx hh
        · simp only [hf]
          rfl

theorem txScanBlocks_sound (dsha : Bytes → Hash) (blocks : List Block)
    (tgt : Hash) :
    ∀ (ids : List Nat) (b : Block) (t : Transaction),
      txScanBlocks dsha blocks tgt ids = some (b, t) → t.hash = tgt := by
  intro ids
  induction ids with
  | nil =>
      intro b t h
      cases h
  | cons i rest ih =>
      intro b t h
      rw [txScanBlocks] at h
      rcases hbi : blocks[i]? with _ | bi
      · simp only [hbi] at h
        exact ih b t h
      · simp only [hbi] at h
        rcases hf : (bi.txs.take bi.tx_count).find?
            (fun tx => decide (tx.hash = tgt)) with _ | t'
        · simp only [hf] at h
          exact ih b t h
        · simp only [hf] at h
          obtain ⟨_, rfl⟩ := Prod.mk.injEq .. ▸ Option.some.inj h
          have := List.find?_some hf
          simpa using this

/-- The per-transaction float total equals the float accumulation of the
per-output displayed values (the same `satoshi / 100000000.0` quotients
that `get_transaction_outputs` returns). -/
theorem tx_btc_amount_eq_fold (t : Transaction) :
    tx_btc_amount t =
      ((t.output_txs.take t.output_tx_count).map
        (fun o => Fl.fdiv (flOfNat o.get_satoshi_int) fl1e8)).foldl
        Fl.fadd ⟨0, 0⟩ := by
  rw [tx_btc_amount, List.foldl_map]

/-- Evaluation of `get_transaction_outputs` on the concrete store: the
displayed value of the 5-satoshi output is the rounded float quotient. -/
theorem wTxBlock_outputs_eval :
    get_transaction_outputs dId (ingest dId [wTxBlock])
        (List.replicate 32 1) =
      (1, [(Fl.fdiv (flOfNat 5) fl1e8, [7])]) := by decide

/-- C7 counterexample: for a known transaction with a single 5-satoshi
output, `get_transaction_outputs` reports the float `5 / 100000000.0`
(about 5.0e-8 BTC, exact value `944473296573929 / 2^74`), not the
unsigned satoshi integer 5 the claim promises; and the reported totals
are float accumulations, which differ from `sum(satoshi) / 100000000`
already on two outputs of 10000000 and 20000000 satoshi
(`0.1 + 0.2 != 0.3` in binary64). -/
theorem transaction_outputs_btc_not_satoshi :
    (get_transaction_outputs dId (ingest dId [wTxBlock])
        (List.replicate 32 1) =
      (1, [(Fl.fdiv (flOfNat 5) fl1e8, [7])]) ∧
      (Fl.fdiv (flOfNat 5) fl1e8).toRat ≠ 5) ∧
    ((wTx2.output_txs.map (fun o => o.get_satoshi_int)).sum = 30000000 ∧
      tx_btc_amount wTx2 ≠ Fl.fdiv (flOfNat 30000000) fl1e8) := by
  have hv : Fl.fdiv (flOfNat 5) fl1e8 = ⟨944473296573929, -74⟩ := by decide
  refine ⟨⟨by decide, ?_⟩, by decide, by decide⟩
  rw [hv]
  show (944473296573929 : Rat) / 2 ^ (74 : Nat) ≠ 5
  norm_num

/-- C7 (amended): for every known txid, `get_transaction_outputs`
returns the found transaction's ordered outputs as pairs
`(satoshi / 100000000.0, script_display)` — BTC-converted floats, not
raw satoshi integers — and the per-transaction total used by
`get_block_transactions` and `get_transaction_info` is the float
accumulation of exactly those displayed per-output values (which can
differ from `sum(satoshi) / 100000000` by rounding — see the
counterexample). -/
theorem transaction_outputs_spec (dsha : Bytes → Hash) (s : Store)
    (txh : Hash) (cnt : Int) (outs : List (Fl × Bytes))
    (hq : get_transaction_outputs dsha s txh = (cnt, outs))
    (hfound : cnt ≠ -1) :
    ∃ t : Transaction,
      t.hash = txh.reverse ∧
      cnt = (t.output_tx_count : Int) ∧
      outs = (t.output_txs.take t.output_tx_count).map
        (fun o => (Fl.fdiv (flOfNat o.get_satoshi_int) fl1e8,
          o.script.reverse)) ∧
      tx_btc_amount t = (outs.map Prod.fst).foldl Fl.fadd ⟨0, 0⟩ := by
  rw [get_transaction_outputs] at hq
  rcases h1 : dGet s.txid_to_prev_hash txh.reverse with _ | p
  · rw [h1] at hq
    simp only at hq
    obtain ⟨rfl, _⟩ := Prod.mk.injEq .. ▸ hq
    exact absurd rfl hfound
  · rw [h1] at hq
    simp only at hq
    rcases h2 : dGet s.prev_hash_to_blocks p with _ | ids
    · rw [h2] at hq
      simp only at hq
      obtain ⟨rfl, _⟩ := Prod.mk.injEq .. ▸ hq
      exact absurd rfl hfound
    · rw [h2] at hq
      simp only at hq
      rcases h3 : txScanBlocks dsha s.blocks txh.reverse ids with _ | bt
      · rw [h3] at hq
        simp only at hq
        obtain ⟨rfl, _⟩ := Prod.mk.injEq .. ▸ hq
        exact absurd rfl hfound
      · rw [h3] at hq
        obtain ⟨b, t⟩ := bt
        simp only at hq
        obtain ⟨hc, ho⟩ := Prod.mk.injEq .. ▸ hq
        refine ⟨t, txScanBlocks_sound dsha s.blocks txh.reverse ids b t h3,
          hc.symm, ho.symm, ?_⟩
        rw [tx_btc_amount_eq_fold t, ← ho, List.map_map]
        rfl

/-- Witness for the amended C7 at the concrete store. -/
theorem transaction_outputs_spec_witness :
    ∃ t : Transaction,
      t.hash = (List.replicate 32 1 : Bytes).reverse ∧
      (1 : Int) = (t.output_tx_count : Int) ∧
      [(Fl.fdiv (flOfNat 5) fl1e8, ([7] : Bytes))] =
        (t.output_txs.take t.output_tx_count).map
          (fun o => (Fl.fdiv (flOfNat o.get_satoshi_int) fl1e8,
            o.script.reverse)) ∧
      tx_btc_amount t =
        (([(Fl.fdiv (flOfNat 5) fl1e8, ([7] : Bytes))].map Prod.fst).foldl
          Fl.fadd ⟨0, 0⟩) :=
  transaction_outputs_spec dId (ingest dId [wTxBlock])
    (List.replicate 32 1) 1 [(Fl.fdiv (flOfNat 5) fl1e8, [7])]
    wTxBlock_outputs_eval (by decide)

/-- C8 (amended): on an ingested store, six of the seven accessors return
an in-band sentinel for an unknown hash (-1 in the numeric position,
empty strings/lists elsewhere) that no known hash can produce, because
known results carry a natural number (cast, hence ≥ 0) in that position;
`is_main_chain` however returns plain `False` for an unknown hash, which
coincides with the result for a known block that is off the main chain
(see the counterexample). -/
theorem accessor_not_found_signals (dsha : Bytes → Hash) (bs : List Block)
    (heights : List (Nat × Nat)) (flags : List Nat)
    (hcnt : ∀ b ∈ bs, b.tx_count = b.txs.length) :
    (∀ h : Hash,
      dGet (ingest dsha bs).curr_hash_to_prev_hash h.reverse = none →
      get_block_height dsha (ingest dsha bs) heights h = -1 ∧
      (get_block_header dsha (ingest dsha bs) h).1 = -1 ∧
      get_block_transactions dsha (ingest dsha bs) h = (-1, []) ∧
      get_main_chain dsha (ingest dsha bs) flags h = false) ∧
    (∀ h : Hash,
      dGet (ingest dsha bs).txid_to_prev_hash h.reverse = none →
      (get_transaction_info dsha (ingest dsha bs) h).2.1 = -1 ∧
      get_transaction_inputs dsha (ingest dsha bs) h = (-1, []) ∧
      get_transaction_outputs dsha (ingest dsha bs) h = (-1, [])) ∧
    (∀ h : Hash,
      (dGet (ingest dsha bs).curr_hash_to_prev_hash h.reverse).isSome →
      0 ≤ get_block_height dsha (ingest dsha bs) heights h ∧
      0 ≤ (get_block_header dsha (ingest dsha bs) h).1 ∧
      0 ≤ (get_block_transactions dsha (ingest dsha bs) h).1) ∧
    (∀ h : Hash,
      (dGet (ingest dsha bs).txid_to_prev_hash h.reverse).isSome →
      0 ≤ (get_transaction_info dsha (ingest dsha bs) h).2.1 ∧
      0 ≤ (get_transaction_inputs dsha (ingest dsha bs) h).1 ∧
      0 ≤ (get_transaction_outputs dsha (ingest dsha bs) h).1) := by
  have hwf := storeWF_ingest dsha bs
  refine ⟨?_, ?_, ?_, ?_⟩
  · intro h hnone
    refine ⟨?_, ?_, ?_, ?_⟩
    · rw [get_block_height]
      simp only [hnone]
    · rw [get_block_header]
      simp only [hnone]
    · rw [get_block_transactions]
      simp only [hnone]
    · rw [get_main_chain]
      simp only [hnone]
  · intro h hnone
    refine ⟨?_, ?_, ?_⟩
    · rw [get_transaction_info]
      simp only [hnone]
    · rw [get_transaction_inputs]
      simp only [hnone]
    · rw [get_transaction_outputs]
      simp only [hnone]
  · intro h hsome
    rcases hp : dGet (ingest dsha bs).curr_hash_to_prev_hash h.reverse
      with _ | p
    · rw [hp] at hsome
      cases hsome
    · obtain ⟨id0, b0, hb0, hch0, hprev0⟩ := hwf.parent_map _ _ hp
      obtain ⟨ids, hids0, hmem⟩ := hwf.registered id0 b0 hb0
      rw [hprev0] at hids0
      have hfs := findFirstBlock_isSome dsha (ingest dsha bs).blocks
        h.reverse ids id0 b0 hmem hb0 hch0
      rcases hfind : findFirstBlock dsha (ingest dsha bs).blocks
          h.reverse ids with _ | id'
      · rw [hfind] at hfs
        cases hfs
      · obtain ⟨b', hb', _⟩ := findFirstBlock_sound dsha _ _ ids id' hfind
        refine ⟨?_, ?_, ?_⟩
        · rw [get_block_height]
          simp only [hp, hids0, hfind]
          exact Int.natCast_nonneg _
        · rw [get_block_header]
          simp only [hp, hids0, hfind, hb']
          exact Int.natCast_nonneg _
        · rw [get_block_transactions]
          simp only [hp, hids0, hfind, hb']
          exact Int.natCast_nonneg _
  · intro h hsome
    rcases hp : dGet (ingest dsha bs).txid_to_prev_hash h.reverse
      with _ | p
    · rw [hp] at hsome
      cases hsome
    · obtain ⟨ids, hids0, id, hmem, b, tx, hb, htx, hhash⟩ :=
        hwf.txid_map _ _ hp
      have htake : b.txs.take b.tx_count = b.txs := by
        rw [hcnt b (ingest_mem_of_lookup hb)]
        exact List.take_length b.txs
      have hts := txScanBlocks_isSome dsha (ingest dsha bs).blocks
        h.reverse ids id b tx hmem hb (by rw [htake]; exact htx) hhash
      rcases hscan : txScanBlocks dsha (ingest dsha bs).blocks
          h.reverse ids with _ | bt
      · rw [hscan] at hts
        cases hts
      · obtain ⟨b', t'⟩ := bt
        refine ⟨?_, ?_, ?_⟩
        · rw [get_transaction_info]
          simp only [hp, hids0, hscan]
          exact Int.natCast_nonneg _
        · rw [get_transaction_inputs]
          simp only [hp, hids0, hscan]
          exact Int.natCast_nonneg _
        · rw [get_transaction_outputs]
          simp only [hp, hids0, hscan]
          exact Int.natCast_nonneg _

/-- Witness for the amended C8: the concrete store answers -1 / false for
an unknown hash and non-negative counts for known ones. -/
theorem accessor_not_found_signals_witness :
    (get_block_height dId (ingest dId [wTxBlock]) []
      (List.replicate 32 9) = -1) ∧
    (get_main_chain dId (ingest dId [wTxBlock]) []
      (List.replicate 32 9) = false) ∧
    (0 ≤ get_block_height dId (ingest dId [wTxBlock]) []
      ((wTxBlock.get_curr_hash_little dId).reverse)) ∧
    (0 ≤ (get_transaction_outputs dId (ingest dId [wTxBlock])
      (List.replicate 32 1)).1) := by
  have hthm := accessor_not_found_signals dId [wTxBlock] [] [] (by decide)
  exact ⟨(hthm.1 _ (by decide)).1, (hthm.1 _ (by decide)).2.2.2,
    (hthm.2.2.1 _ (by decide)).1, (hthm.2.2.2 _ (by decide)).2.2⟩

/-- C8 counterexample: after `setup` on the two-genesis store, the known
but off-main-chain block G2 and a completely unknown hash both make
`get_main_chain` return `False` — the caller cannot distinguish the
not-found case from a legitimately-false one. -/
theorem main_chain_unknown_equals_offchain :
    (setup dId cChain 10).map (fun r =>
      (get_main_chain dId r.store r.main_flags
        ((cG2.get_curr_hash_little dId).reverse),
       get_main_chain dId r.store r.main_flags (List.replicate 32 9))) =
      some (false, false) ∧
    (dGet (ingest dId cChain).curr_hash_to_prev_hash
      (cG2.get_curr_hash_little dId)).isSome ∧
    dGet (ingest dId cChain).curr_hash_to_prev_hash
      (List.replicate 32 9).reverse = none := by
  exact ⟨by decide, by decide, by decide⟩

/-! ### Validation lemmas: C9 -/

theorem dropWhile_eq_self_of_none {p : Char → Bool} :
    ∀ s : List Char, (∀ c ∈ s, p c = false) → s.dropWhile p = s := by
  intro s h
  cases s with
  | nil => rfl
  | cons c rest =>
      rw [List.dropWhile_cons]
      simp [h c (by simp)]

theorem isHexDigit_of_lower {c : Char} (h : isLowerHexChar c = true) :
    isHexDigitChar c = true := by
  simp only [isLowerHexChar, decide_eq_true_eq] at h
  simp only [isHexDigitChar, decide_eq_true_eq]
  omega

theorem hexDigitValue_isSome {c : Char} (h : isHexDigitChar c = true) :
    (hexDigitValue c).isSome := by
  simp only [isHexDigitChar, decide_eq_true_eq] at h
  rw [hexDigitValue]
  rcases h with h | h | h
  · rw [if_pos h]
    rfl
  · rw [if_neg (by omega), if_pos h]
    rfl
  · rw [if_neg (by omega), if_neg (by omega), if_pos h]
    rfl

theorem hexDecode_isSome :
    ∀ (n : Nat) (s : List Char), s.length = 2 * n →
      (∀ c ∈ s, isHexDigitChar c = true) → (hexDecode s).isSome := by
  intro n
  induction n with
  | zero =>
      intro s hlen _
      match s, hlen with
      | [], _ => rfl
  | succ n ih =>
      intro s hlen hhex
      match s with
      | c1 :: c2 :: rest =>
          have h1 := hexDigitValue_isSome (hhex c1 (by simp))
          have h2 := hexDigitValue_isSome (hhex c2 (by simp))
          have hrest : (hexDecode rest).isSome := by
            apply ih rest
            · simp at hlen
              omega
            · intro c hc
              exact hhex c (by simp [hc])
          rw [hexDecode]
          rcases hv1 : hexDigitValue c1 with _ | hi
          · rw [hv1] at h1
            cases h1
          · rcases hv2 : hexDigitValue c2 with _ | lo
            · rw [hv2] at h2
              cases h2
            · rcases hv3 : hexDecode rest with _ | bs
              · rw [hv3] at hrest
                cases hrest
              · simp [hv1, hv2, hv3]
      | [] => simp at hlen
      | [c] => simp at hlen; omega

theorem pyInt16_of_lowerHex {s : List Char} (h : isLowerHex64 s = true) :
    pyInt16Accepts s = true := by
  simp only [isLowerHex64, Bool.and_eq_true, decide_eq_true_eq,
    List.all_eq_true] at h
  obtain ⟨hlen, hlow⟩ := h
  have hnospace : ∀ c ∈ s, pyIsSpace c = false := by
    intro c hc
    have := hlow c hc
    simp only [isLowerHexChar, decide_eq_true_eq] at this
    simp only [pyIsSpace, decide_eq_false_iff_not]
    omega
  have ht1 : ((s.dropWhile pyIsSpace).reverse.dropWhile pyIsSpace).reverse
      = s := by
    rw [dropWhile_eq_self_of_none s hnospace,
      dropWhile_eq_self_of_none s.reverse
        (fun c hc => hnospace c (List.mem_reverse.mp hc)),
      List.reverse_reverse]
  match s, hlen with
  | c0 :: x :: rest, hlen =>
      have hc0 := hlow c0 (by simp)
      have hx := hlow x (by simp)
      simp only [isLowerHexChar, decide_eq_true_eq] at hc0 hx
      rw [pyInt16Accepts]
      simp only [ht1]
      have hns : ¬(c0 = '+' ∨ c0 = '-') := by
        rintro (rfl | rfl) <;> simp at hc0
      have hnx : ¬(c0 = '0' ∧ (x = 'x' ∨ x = 'X')) := by
        rintro ⟨_, rfl | rfl⟩ <;> simp at hx
      simp only [if_neg hns, if_neg hnx]
      refine (Bool.and_eq_true _ _).mpr ⟨by simp, ?_⟩
      rw [List.all_eq_true]
      intro c hc
      exact isHexDigit_of_lower (hlow c hc)

/-- C9 (amended): requests with a hash parameter are answered with HTTP
400 before any lookup exactly when the string fails the length-64 or
Python `int(s, 16)` check; every 64-character lowercase hex string passes
and its lookup is performed; but the `int` check also admits non-lowercase
forms (uppercase hex, a sign, a `0x` prefix, surrounding whitespace), so
the lookup is NOT performed only on lowercase hex input. -/
theorem hash_validation_spec (dsha : Bytes → Hash) (s : Store)
    (heights : List (Nat × Nat)) :
    (∀ q : List Char, validate_hash_query q = false →
      handle_blockheight dsha s heights q = QueryResponse.badRequest) ∧
    (∀ q : List Char, q.length ≠ 64 →
      handle_blockheight dsha s heights q = QueryResponse.badRequest) ∧
    (∀ (q : List Char) (bytes : Bytes), validate_hash_query q = true →
      hexDecode q = some bytes →
      handle_blockheight dsha s heights q =
        QueryResponse.ok (get_block_height dsha s heights bytes)) ∧
    (∀ q : List Char, isLowerHex64 q = true →
      validate_hash_query q = true ∧ ∃ bytes, hexDecode q = some bytes) := by
  refine ⟨?_, ?_, ?_, ?_⟩
  · intro q h
    simp [handle_blockheight, h]
  · intro q h
    have hv : validate_hash_query q = false := by
      simp [validate_hash_query, h]
    simp [handle_blockheight, hv]
  · intro q bytes hval hdec
    simp [handle_blockheight, hval, hdec]
  · intro q h
    have hlen : q.length = 64 := by
      simp only [isLowerHex64, Bool.and_eq_true, decide_eq_true_eq] at h
      exact h.1
    have hall : ∀ c ∈ q, isHexDigitChar c = true := by
      intro c hc
      simp only [isLowerHex64, Bool.and_eq_true, List.all_eq_true] at h
      exact isHexDigit_of_lower (h.2 c hc)
    refine ⟨?_, ?_⟩
    · rw [validate_hash_query]
      simp [hlen, pyInt16_of_lowerHex h]
    · have := hexDecode_isSome 32 q (by omega) hall
      rcases hd : hexDecode q with _ | bytes
      · rw [hd] at this
        cases this
      · exact ⟨bytes, rfl⟩

/-- C9 counterexample: sixty-four uppercase `A`s pass the handler's
validation (Python `int(s, 16)` accepts uppercase hex) and reach the
lookup, although the string is not lowercase hex. -/
theorem uppercase_hex_reaches_lookup :
    validate_hash_query (List.replicate 64 'A') = true ∧
    isLowerHex64 (List.replicate 64 'A') = false ∧
    handle_blockheight dId emptyStore [] (List.replicate 64 'A') =
      QueryResponse.ok (-1) := by
  exact ⟨by decide, by decide, by decide⟩

/-- Witness for the amended C9: a short string is rejected with 400, and
a concrete 64-character lowercase hex string passes validation and
decodes. -/
theorem hash_validation_spec_witness :
    handle_blockheight dId emptyStore [] ['a', 'b'] =
      QueryResponse.badRequest ∧
    (validate_hash_query (List.replicate 64 'a') = true ∧
      ∃ bytes, hexDecode (List.replicate 64 'a') = some bytes) := by
  constructor
  · exact (hash_validation_spec dId emptyStore []).2.1 ['a', 'b'] (by decide)
  · exact (hash_validation_spec dId emptyStore []).2.2.2
      (List.replicate 64 'a') (by decide)
